import Mathlib

/-!
Verification of the easytpl template transpiler (Teamwork/easytpl, easytpl.go).

Strings are modelled as lists of runes (`List Char`).  Go indexes strings by
byte; the two views coincide on ASCII data, and every theorem that touches a
position where Go slices bytes carries an ASCII hypothesis for that position.
The fallible parts of the Go code (the `tagParts[0][0:1]` slice panics on an
empty segment) are modelled with `Option`: `none` is a crash of the Go code.
-/

namespace Easytpl

abbrev Str := List Char

/-- Convert a Lean string literal to the rune-list model. -/
def str (s : String) : Str := s.toList

/-- Go's `unicode.IsSpace`: the Unicode White_Space property.  The members,
by code point: 0x9-0xD are \t \n \v \f \r, 0x20 space, 0x85 NEL, 0xA0 NBSP,
0x1680 OGHAM SPACE MARK, 0x2000-0x200A EN QUAD through HAIR SPACE, 0x2028
LINE SEPARATOR, 0x2029 PARAGRAPH SEPARATOR, 0x202F NARROW NO-BREAK SPACE,
0x205F MEDIUM MATHEMATICAL SPACE, 0x3000 IDEOGRAPHIC SPACE. -/
def goIsSpace (c : Char) : Bool :=
  (0x9 ≤ c.toNat && c.toNat ≤ 0xD) || c.toNat = 0x20 || c.toNat = 0x85 ||
  c.toNat = 0xA0 || c.toNat = 0x1680 ||
  (0x2000 ≤ c.toNat && c.toNat ≤ 0x200A) || c.toNat = 0x2028 || c.toNat = 0x2029 ||
  c.toNat = 0x202F || c.toNat = 0x205F || c.toNat = 0x3000

/-- Go's regexp character class `\s` = `[\t\n\f\r ]`. -/
def reSpace (c : Char) : Bool :=
  c = ' ' || c = '\t' || c = '\n' || c = '\x0c' || c = '\r'

/-- `strings.TrimSpace`, left part. -/
def trimLeft (s : Str) : Str := s.dropWhile goIsSpace

/-- `strings.TrimSpace`, right part. -/
def trimRight (s : Str) : Str := (s.reverse.dropWhile goIsSpace).reverse

/-- `strings.TrimSpace`. -/
def trimSpace (s : Str) : Str := trimRight (trimLeft s)

/-- The per-rune lowering of `strings.ToLower` and of the case folding the
`(?i)` regexps apply.  The search words this lowering feeds are ASCII
(`fallback`, via `findFallback` and the `strings.Contains` guard), and the
only runes Go lowers or simple-folds to an ASCII character are the capitals
A-Z, 0x130 (LATIN CAPITAL I WITH DOT ABOVE, to `i`) and 0x212A (KELVIN SIGN,
to `k`): this definition agrees with Go on all of those, and on the Latin-1
and 0x212B (ANGSTROM SIGN) lowerings.  Every other rune is kept unchanged;
Go may lower such a rune differently, but never to an ASCII character, so an
ASCII search word occurs in the one lowering exactly where it occurs in the
other. -/
def goToLower (c : Char) : Char :=
  if 'A' ≤ c && c ≤ 'Z' then Char.ofNat (c.toNat + 32)
  else if 0xC0 ≤ c.toNat && c.toNat ≤ 0xDE && c.toNat != 0xD7 then
    Char.ofNat (c.toNat + 32)
  else if c.toNat = 0x130 then 'i'
  else if c.toNat = 0x212A then 'k'
  else if c.toNat = 0x212B then Char.ofNat 0xE5
  else c

/-- `strings.ToLower`. -/
def lowerStr (s : Str) : Str := s.map goToLower

/-- `strings.Split(s, ".")`. -/
def splitDot : Str → List Str
  | [] => [[]]
  | c :: r =>
    if c = '.' then [] :: splitDot r
    else
      match splitDot r with
      | [] => [[c]]
      | h :: t => (c :: h) :: t

/-- `strings.SplitN(s, ",", 2)`: the part before the first comma and,
when a comma exists, the part after it. -/
def splitComma2 : Str → Str × Option Str
  | [] => ([], none)
  | c :: r =>
    if c = ',' then ([], some r)
    else
      match splitComma2 r with
      | (h, t) => (c :: h, t)

/-- Does `s` start with `pat`? -/
def startsWithStr : Str → Str → Bool
  | [], _ => true
  | _ :: _, [] => false
  | p :: ps, c :: cs => p = c && startsWithStr ps cs

/-- Does `pat` occur as a contiguous substring of `s`? -/
def hasSub (pat : Str) : Str → Bool
  | [] => startsWithStr pat []
  | s@(_ :: r) => startsWithStr pat s || hasSub pat r

/-! ## The tag matcher

`tagsToGo = (?i)\\?(\{\%|\%7B\%25)+(.*?)(\%\}|\%25\%7D)+`, matched with Go's
leftmost-first semantics: the optional backslash and the two `+` groups are
greedy (with backtracking on the open-delimiter count), the middle group is
lazy, and `.` does not match a newline. -/

/-- One closing delimiter: `%}`, or case-insensitively `%25%7D`. -/
def matchClose : Str → Option (Str × Str) := fun s =>
  match s with
  | [] => none
  | c1 :: r1 =>
    if c1 = '%' then
      match r1 with
      | [] => none
      | c2 :: r2 =>
        if c2 = '\x7d' then some ([c1, c2], r2)
        else if c2 = '2' then
          match r2 with
          | c3 :: c4 :: c5 :: c6 :: r =>
            if c3 = '5' ∧ c4 = '%' ∧ c5 = '7' ∧ (c6 = 'D' ∨ c6 = 'd') then
              some ([c1, c2, c3, c4, c5, c6], r)
            else none
          | _ => none
        else none
    else none

/-- Greedily consume a (possibly empty) run of closing delimiters. -/
def closeRunMax : Str → Str × Str := fun s =>
  match s with
  | [] => ([], [])
  | c1 :: r1 =>
    if c1 = '%' then
      match r1 with
      | [] => ([], c1 :: r1)
      | c2 :: r2 =>
        if c2 = '\x7d' then
          let p := closeRunMax r2
          (c1 :: c2 :: p.1, p.2)
        else if c2 = '2' then
          match r2 with
          | c3 :: c4 :: c5 :: c6 :: r =>
            if c3 = '5' ∧ c4 = '%' ∧ c5 = '7' ∧ (c6 = 'D' ∨ c6 = 'd') then
              let p := closeRunMax r
              (c1 :: c2 :: c3 :: c4 :: c5 :: c6 :: p.1, p.2)
            else ([], c1 :: r1)
          | _ => ([], c1 :: r1)
        else ([], c1 :: r1)
    else ([], c1 :: r1)

/-- Lazy middle group followed by the greedy close-run: the shortest prefix
(containing no newline) after which a closing delimiter starts.  Returns
(content, close-run, rest). -/
def findContentClose : Str → Option (Str × Str × Str) := fun s =>
  match s with
  | [] => none
  | c :: r =>
    if (matchClose (c :: r)).isSome then
      some ([], (closeRunMax (c :: r)).1, (closeRunMax (c :: r)).2)
    else if c = '\n' then none
    else (findContentClose r).map fun x => (c :: x.1, x.2.1, x.2.2)

/-- One opening delimiter: `{%`, or case-insensitively `%7B%25`. -/
def matchOpen : Str → Option (Str × Str) := fun s =>
  match s with
  | [] => none
  | c1 :: r1 =>
    if c1 = '\x7b' then
      match r1 with
      | [] => none
      | c2 :: r => if c2 = '%' then some ([c1, c2], r) else none
    else if c1 = '%' then
      match r1 with
      | c2 :: c3 :: c4 :: c5 :: c6 :: r =>
        if c2 = '7' ∧ (c3 = 'B' ∨ c3 = 'b') ∧ c4 = '%' ∧ c5 = '2' ∧ c6 = '5' then
          some ([c1, c2, c3, c4, c5, c6], r)
        else none
      | _ => none
    else none

/-- Backtracking search after at least one opening delimiter was consumed:
prefer consuming a further opening delimiter (greedy `+`); if no match results
from deeper, fall back to scanning the content from here.  Returns
(extra opens, content, close-run, rest).  `fuel ≥ s.length` suffices: each
opening delimiter is at least two characters, and when no opening delimiter
starts here the fuel is not consulted. -/
def tryMoreAux : Nat → Str → Option (Str × Str × Str × Str)
  | 0, s => (findContentClose s).map fun y => ([], y)
  | fuel + 1, s =>
    match matchOpen s with
    | none => (findContentClose s).map fun y => ([], y)
    | some (o, r) =>
      match tryMoreAux fuel r with
      | some x => some (o ++ x.1, x.2.1, x.2.2.1, x.2.2.2)
      | none => (findContentClose s).map fun y => ([], y)

def tryMore (s : Str) : Option (Str × Str × Str × Str) := tryMoreAux s.length s

structure TagMatch where
  esc : Bool
  opens : Str
  content : Str
  closes : Str
  rest : Str
deriving DecidableEq, Repr

/-- The full matched text of a tag match. -/
def TagMatch.matchText (m : TagMatch) : Str :=
  (if m.esc then ['\\'] else []) ++ m.opens ++ m.content ++ m.closes

/-- Match the tag regex at this position, without the optional backslash:
one opening delimiter, then greedily further ones, then the lazy content and
the greedy close-run. -/
def matchTagNoEsc (s : Str) : Option TagMatch :=
  match matchOpen s with
  | none => none
  | some (o, r) =>
    (tryMore r).map fun x => ⟨false, o ++ x.1, x.2.1, x.2.2.1, x.2.2.2⟩

/-- Match the tag regex at this position (`\\?` greedy). -/
def matchTagAt : Str → Option TagMatch := fun s =>
  match s with
  | [] => none
  | c :: r =>
    if c = '\\' then
      match matchTagNoEsc r with
      | some m => some { m with esc := true }
      | none => none
    else matchTagNoEsc (c :: r)

/-! ## Fallback expansion (`replaceTemplateFallback`) -/

/-- Case-insensitive `fallback` keyword at the head of `s`. -/
def dropFallbackWord : Str → Option Str
  | c1 :: c2 :: c3 :: c4 :: c5 :: c6 :: c7 :: c8 :: r =>
    if lowerStr [c1, c2, c3, c4, c5, c6, c7, c8] = str "fallback" then some r else none
  | _ => none

/-- The `findFallback` regex `(?i)\s*(fallback)\s*=` matched at the head:
`some rest` when a marker starts here, `rest` being the text after the `=`. -/
def matchMarker (s : Str) : Option Str :=
  match dropFallbackWord (s.dropWhile reSpace) with
  | some r =>
    match r.dropWhile reSpace with
    | '=' :: r2 => some r2
    | _ => none
  | none => none

/-- No `(?i)\s*(fallback)\s*=` marker occurrence starts anywhere in `s`. -/
def markerFree : Str → Bool
  | [] => true
  | s@(_ :: r) => (matchMarker s).isNone && markerFree r

/-- `findFallback.ReplaceAllString(s, "")`: delete every leftmost,
non-overlapping marker occurrence.  `fuel ≥ s.length` suffices, so the
fuel-exhaustion branch is unreachable from `removeMarkers`. -/
def removeMarkersAux : Nat → Str → Str
  | _, [] => []
  | 0, s => s
  | fuel + 1, s@(c :: r) =>
    match matchMarker s with
    | some rest => removeMarkersAux fuel rest
    | none => c :: removeMarkersAux fuel r

def removeMarkers (s : Str) : Str := removeMarkersAux s.length s

/-- `replaceTemplateFallback` from easytpl.go: expand
`{{.Ns.Key,fallback=text}}` into `{{if .Ns.Key}}{{.Ns.Key}}{{else}}text{{end}}`,
returning the input unchanged when it has no `fallback` substring or no comma. -/
def replaceTemplateFallback (tag : Str) : Str :=
  if hasSub (str "fallback") (lowerStr tag) = false then tag
  else
    let tagBody := (tag.drop 2).take (tag.length - 4)
    match splitComma2 tagBody with
    | (_, none) => tag
    | (v, some f) =>
      let vbl := trimSpace v
      let fb := trimSpace (removeMarkers f)
      str "\x7b\x7bif " ++ vbl ++ str "\x7d\x7d\x7b\x7b" ++ vbl ++
        str "\x7d\x7d\x7b\x7belse\x7d\x7d" ++ fb ++ str "\x7b\x7bend\x7d\x7d"

/-! ## The variable index (`usedVars`) -/

abbrev Index := List (Str × List Str)

def idxLookup : Index → Str → Option (List Str)
  | [], _ => none
  | (n, ks) :: t, ns => if n = ns then some ks else idxLookup t ns

/-- Record `(ns, k)`: create the namespace entry when absent, append `k` to
its key list when not already present (`sliceutil.InStringSlice`). -/
def idxAdd : Index → Str → Str → Index
  | [], ns, k => [(ns, [k])]
  | (n, ks) :: t, ns, k =>
    if n = ns then (n, if k ∈ ks then ks else ks ++ [k]) :: t
    else (n, ks) :: idxAdd t ns k

/-! ## Processing one unescaped tag match -/

/-- Outcome of the replacement callback on one unescaped match:
`keep` leaves the matched text unchanged (fewer than two dot-segments),
`crash` is Go's `tagParts[i][0:1]` panic on an empty segment,
`repl ns key out` records `(ns, key)` and replaces the match by `out`. -/
inductive TagOut where
  | keep : TagOut
  | crash : TagOut
  | repl (ns key out : Str) : TagOut
deriving DecidableEq

/-- `strings.ToUpper(s[0:1]) + s[1:]`.  Go slices the first byte; for an ASCII
first character this equals uppercasing the first rune, which is what is
modelled.  `none` is Go's slice-bounds panic on the empty segment. -/
def upperFirst : Str → Option Str
  | [] => none
  | c :: r => some (c.toUpper :: r)

/-- The body of the replacement function passed to
`tagsToGo.ReplaceAllStringFunc` for an unescaped match with content `content`. -/
def processTag (content : Str) : TagOut :=
  match splitDot (trimSpace content) with
  | p0 :: p1 :: _ =>
    (match upperFirst p0, upperFirst p1 with
     | some ns, some key =>
       .repl ns key
         (replaceTemplateFallback (str "\x7b\x7b." ++ ns ++ str "." ++ key ++ str "\x7d\x7d"))
     | _, _ => .crash)
  | _ => .keep

/-! ## The two passes of `prepareTemplateTags` -/

/-- Lazy close of the `escapeGo` regex `\{\{.*?\}\}`: the shortest prefix
(no newline) before a `}}`. -/
def findCloseBB : Str → Option (Str × Str) := fun s =>
  match s with
  | [] => none
  | c1 :: r1 =>
    if c1 = '\x7d' then
      match r1 with
      | [] => none
      | c2 :: r2 =>
        if c2 = '\x7d' then some ([], r2)
        else (findCloseBB r1).map fun x => (c1 :: x.1, x.2)
    else if c1 = '\n' then none
    else (findCloseBB r1).map fun x => (c1 :: x.1, x.2)

/-- Match `\{\{.*?\}\}` at this position: (middle, rest). -/
def escapeMatchAt : Str → Option (Str × Str) := fun s =>
  match s with
  | [] => none
  | c1 :: r1 =>
    if c1 = '\x7b' then
      match r1 with
      | [] => none
      | c2 :: r2 => if c2 = '\x7b' then findCloseBB r2 else none
    else none

/-- First pass: `escapeGo.ReplaceAllStringFunc`, wrapping each `{{...}}` match
as `{{ "match" }}` unless the match contains a double quote.
`fuel ≥ s.length` suffices, so the fuel-exhaustion branch is unreachable. -/
def escapeAux : Nat → Str → Str
  | _, [] => []
  | 0, s => s
  | fuel + 1, s@(c :: r) =>
    match escapeMatchAt s with
    | none => c :: escapeAux fuel r
    | some (mid, rest) =>
      let m := '\x7b' :: '\x7b' :: (mid ++ ['\x7d', '\x7d'])
      (if m.contains '"' then m
       else str "\x7b\x7b \"" ++ m ++ str "\" \x7d\x7d") ++ escapeAux fuel rest

def escapeGoPass (s : Str) : Str := escapeAux s.length s

/-- Second pass: `tagsToGo.ReplaceAllStringFunc` with the closure from
`prepareTemplateTags`, accumulating `usedVars`.  `fuel ≥ s.length` suffices;
`none` is a crash of the Go code.  An escaped match is replaced by `match[1:]`
and recorded nowhere. -/
def tagsPassAux : Nat → Str → Index → Option (Str × Index)
  | _, [], idx => some ([], idx)
  | 0, _ :: _, _ => none
  | fuel + 1, s@(c :: r), idx =>
    match matchTagAt s with
    | none => (tagsPassAux fuel r idx).map fun x => (c :: x.1, x.2)
    | some m =>
      if m.esc then
        (tagsPassAux fuel m.rest idx).map fun x =>
          ((m.opens ++ m.content ++ m.closes) ++ x.1, x.2)
      else
        match processTag m.content with
        | .keep =>
          (tagsPassAux fuel m.rest idx).map fun x =>
            ((m.opens ++ m.content ++ m.closes) ++ x.1, x.2)
        | .crash => none
        | .repl ns key out =>
          (tagsPassAux fuel m.rest (idxAdd idx ns key)).map fun x => (out ++ x.1, x.2)

/-- `prepareTemplateTags` from easytpl.go: the escape pass followed by the tag
pass.  `none` models a panic of the Go code. -/
def prepareTemplateTags (body : Str) : Option (Str × Index) :=
  let b := escapeGoPass body
  tagsPassAux b.length b []

/-! ## The resolver (`replaceVariables`, parameter building)

A `Templateable` capability supplies `TemplateKeys` (bulk resolve; `none`
models a Go `nil` map) and `TemplateCallbacks` (lazy resolve; `none` models
`setIt = false`).  The context and `parentKeys` arguments are threaded through
unchanged by the core, so they are absorbed into the capability closures. -/

/-- A template parameter value (`interface{}` in Go). -/
inductive Val where
  | vStr (s : Str) : Val
  | vBool (b : Bool) : Val
  | vOpaque (n : Nat) : Val
deriving DecidableEq

abbrev ParamMap := List (Str × Val)

structure Capability where
  templateKeys : Option ParamMap
  templateCallbacks : Str → Option Str

/-- Go map assignment `m[k] = v`: overwrite in place, else append. -/
def setKey : ParamMap → Str → Val → ParamMap
  | [], k, v => [(k, v)]
  | (k0, v0) :: t, k, v =>
    if k0 = k then (k0, v) :: t else (k0, v0) :: setKey t k v

def lookupParam : ParamMap → Str → Option Val
  | [], _ => none
  | (k0, v0) :: t, k => if k0 = k then some v0 else lookupParam t k

/-- One capability invocation, for the at-most-once accounting. -/
inductive CallEvent where
  | bulk (ns : Str) : CallEvent
  | lazy (ns : Str) (key : Str) : CallEvent
deriving DecidableEq

/-- The lazy-resolution loop of `replaceVariables` for one namespace:
`for _, v := range used { if result, setIt := ...TemplateCallbacks(v); setIt
{ params[key][v] = result } }`. -/
def applyLazy (cap : Capability) (m : ParamMap) : List Str → ParamMap
  | [] => m
  | v :: rest =>
    match cap.templateCallbacks v with
    | some result => applyLazy cap (setKey m v (.vStr result)) rest
    | none => applyLazy cap m rest

/-- The parameter-building loop of `replaceVariables`, also returning the
trace of capability invocations in order. -/
def buildParams (caps : List (Str × Capability)) (usedVars : Index) :
    List (Str × ParamMap) × List CallEvent :=
  match caps with
  | [] => ([], [])
  | (key, value) :: rest =>
    let base := value.templateKeys.getD []
    let used := (idxLookup usedVars key).getD []
    let entry := applyLazy value base used
    let tl := buildParams rest usedVars
    ((key, entry) :: tl.1, (.bulk key :: used.map (.lazy key)) ++ tl.2)

/-- Go map lookup in the capability map. -/
def capLookup : List (Str × Capability) → Str → Option Capability
  | [], _ => none
  | (n, cap) :: t, ns => if n = ns then some cap else capLookup t ns

/-- Go map lookup in the parameter tree. -/
def lookupTree : List (Str × ParamMap) → Str → Option ParamMap
  | [], _ => none
  | (n, m) :: t, ns => if n = ns then some m else lookupTree t ns

/-! ## `TestSafe` and the error translator

The underlying engine (Go's html/template and text/template) is an external
collaborator; one parse+execute attempt is represented by its observable
outcome.  `replaceVariables` returns the (transpiled) body together with the
error when execution fails, and the rendered output otherwise. -/

/-- An error value of the underlying engine, as `TestSafe` can observe it:
whether it is a `textTemplate.ExecError`, and its `Error()` text. -/
inductive GoErr where
  | execError (msg : Str) : GoErr
  | otherErr (msg : Str) : GoErr
deriving DecidableEq

def GoErr.msg : GoErr → Str
  | .execError m => m
  | .otherErr m => m

/-- Outcome of one parse-then-execute attempt of the underlying engine. -/
structure EngineOutcome where
  parseErr : Option GoErr
  execRes : Except GoErr Str

/-! The error-pattern regex
`parseTemplateError = executing "email" at \<\.(.*?)\>.*?\"(.*?)\"`,
with lazy groups and `.` not matching a newline. -/

/-- `(.*?)\"`: the text before the next `"`, failing at a newline or the end. -/
def takeToQuote : Str → Option (Str × Str)
  | [] => none
  | '"' :: r => some ([], r)
  | '\n' :: _ => none
  | c :: r => (takeToQuote r).map fun x => (c :: x.1, x.2)

/-- `.*?\"(.*?)\"`: find the first quote pair; `.` cannot cross a newline. -/
def quotePair : Str → Option Str
  | [] => none
  | '\n' :: _ => none
  | '"' :: r => (takeToQuote r).map fun x => x.1
  | _ :: r => quotePair r

/-- `(.*?)\>.*?\"(.*?)\"` with backtracking: group 1 runs to the first `>`
after which a quote pair exists. -/
def afterGt : Str → Option (Str × Str)
  | [] => none
  | '\n' :: _ => none
  | '>' :: r =>
    (match quotePair r with
     | some g2 => some ([], g2)
     | none => (afterGt r).map fun x => ('>' :: x.1, x.2))
  | c :: r => (afterGt r).map fun x => (c :: x.1, x.2)

/-- The whole `parseTemplateError` pattern anchored at this position. -/
def pteAt (s : Str) : Option (Str × Str) :=
  if startsWithStr (str "executing \"email\" at <.") s then
    afterGt (s.drop (str "executing \"email\" at <.").length)
  else none

/-- `FindAllStringSubmatch(msg, -1)`, first match: leftmost position where the
whole pattern matches, yielding (group 1, group 2). -/
def pteFind : Str → Option (Str × Str)
  | [] => none
  | s@(_ :: r) =>
    match pteAt s with
    | some g => some g
    | none => pteFind r

/-- The translated strict-mode error text:
`fmt.Errorf("unknown variable %s at %s", variables[0][2], variables[0][1])`. -/
def unknownVariableMsg (g1 g2 : Str) : Str :=
  str "unknown variable " ++ g2 ++ str " at " ++ g1

/-- The error-handling tail of `TestSafe` (everything after the second
`replaceVariables` attempt), given the transpiled body, the output of
`replaceVariables` (the body itself on failure) and the error. -/
def testSafeTranslate (out : Str) (err : GoErr) : Str × Option GoErr :=
  match err with
  | .otherErr _ => (out, some err)
  | .execError msg =>
    match pteFind msg with
    | none => (out, some err)
    | some (g1, g2) => ([], some (.otherErr (unknownVariableMsg g1 g2)))

/-- `TestSafe` from easytpl.go, with the two engine attempts (strict
html/template, then strict text/template) given by their outcomes and the
transpiled body `body`.  Returns the output text and the error. -/
def testSafe (htmlO textO : EngineOutcome) (body : Str) : Str × Option GoErr :=
  match htmlO.parseErr with
  | some e => ([], some e)
  | none =>
    match htmlO.execRes with
    | .ok out => (out, none)
    | .error _ =>
      match textO.parseErr with
      | some e => ([], some e)
      | none =>
        match textO.execRes with
        | .ok out => (out, none)
        | .error e => testSafeTranslate body e

/-! ## Derived notions used to state the claims -/

/-- Does the tag regex match anywhere in `s`? -/
def hasTagIn : Str → Bool
  | [] => false
  | s@(_ :: r) => (matchTagAt s).isSome || hasTagIn r

/-- The (namespace, key) pairs recorded by the scan, in scan order and
without deduplication: one pair per well-formed unescaped tag match.
Same fuel discipline and crash conditions as `tagsPassAux`. -/
def collectAux : Nat → Str → Option (List (Str × Str))
  | _, [] => some []
  | 0, _ :: _ => none
  | fuel + 1, s@(_ :: r) =>
    match matchTagAt s with
    | none => collectAux fuel r
    | some m =>
      if m.esc then collectAux fuel m.rest
      else
        match processTag m.content with
        | .keep => collectAux fuel m.rest
        | .crash => none
        | .repl ns key _ => (collectAux fuel m.rest).map fun ps => (ns, key) :: ps

/-- The recorded pair sequence of the whole transpile pass. -/
def collectTags (body : Str) : Option (List (Str × Str)) :=
  collectAux (escapeGoPass body).length (escapeGoPass body)

/-- Insert a key at the end unless already present. -/
def insertNew (ks : List Str) (k : Str) : List Str :=
  if k ∈ ks then ks else ks ++ [k]

/-- First-seen-order deduplication. -/
def dedupKeys (l : List Str) : List Str := l.foldl insertNew []

/-- The keys paired with namespace `ns` in a pair list, in order. -/
def keysOf (ps : List (Str × Str)) (ns : Str) : List Str :=
  ps.filterMap fun p => if p.1 = ns then some p.2 else none

/-- Modelled from the spec: the underlying engine's parse+execute on text that
contains none of its directive syntax.  The engine is an external collaborator
whose code is not in this repository; the only behavior the spec fixes for
such text is that literal text is emitted verbatim with no error (§1, §8).
Text containing the engine's open delimiter `{{` is left unspecified (`none`)
by this model. -/
def engineRenderPlain (body : Str) (_tree : List (Str × ParamMap)) : Option Str :=
  if hasSub (str "\x7b\x7b") body then none else some body

/-- `Text` from easytpl.go: transpile, then hand the transformed body and the
resolved parameter tree to the underlying engine (modelled by
`engineRenderPlain`).  `none` covers both a Go panic and engine behavior
outside the modelled fragment. -/
def Text (body : Str) (caps : List (Str × Capability)) : Option Str :=
  match prepareTemplateTags body with
  | none => none
  | some (b, usedVars) => engineRenderPlain b (buildParams caps usedVars).1

/-- Modelled from the spec: the execution-error text of the underlying engine
(Go's text/template with `missingkey=error`) when the namespace `ns` of a
referenced `{{.Ns.Key}}` has no entry in the parameter tree.  The engine
itself is an external collaborator whose code is not in this repository; the
shape `executing "email" at <.Ns.Key>: map has no entry for key "Ns"` is the
one the spec's error translator (§4.5) and the repository's test pin down. -/
def missingNsErrMsg (ns key : Str) : Str :=
  str "template: email:1:7: executing \"email\" at <." ++ ns ++ str "." ++ key ++
    str ">: map has no entry for key \"" ++ ns ++ str "\""

/-! # Lemmas -/

/-- Characters allowed in a namespace or key segment in the well-formed-tag
theorems: no separator, delimiter, escape or whitespace characters. -/
def plainChar (c : Char) : Bool :=
  !(c = '.' || c = ',' || c = '%' || c = '\x7b' || c = '\x7d' || c = '\n' ||
    c = '\\' || goIsSpace c)

/-- Characters allowed in a fallback text: nothing that interferes with tag
matching or the dot split.  Commas, equal signs, whitespace and non-ASCII
characters are all allowed. -/
def fbChar (c : Char) : Bool :=
  !(c = '.' || c = '%' || c = '\x7b' || c = '\n')

theorem matchClose_ne_pct (c : Char) (r : Str) (h : c ≠ '%') :
    matchClose (c :: r) = none := by
  simp [matchClose, h]

theorem findContentClose_append (xs s : Str) (h : ∀ c ∈ xs, c ≠ '%' ∧ c ≠ '\n') :
    findContentClose (xs ++ s) =
      (findContentClose s).map fun x => (xs ++ x.1, x.2.1, x.2.2) := by
  induction xs with
  | nil =>
    cases hz : findContentClose s with
    | none => simp [hz]
    | some x => simp [hz]
  | cons c t ih =>
    have hc := h c (by simp)
    have ht : ∀ a ∈ t, a ≠ '%' ∧ a ≠ '\n' := fun a ha => h a (by simp [ha])
    rw [List.cons_append]
    rw [show findContentClose (c :: (t ++ s)) =
        (findContentClose (t ++ s)).map fun x => (c :: x.1, x.2.1, x.2.2) by
      simp [findContentClose, matchClose_ne_pct c _ hc.1, hc.2]]
    rw [ih ht]
    cases findContentClose s <;> simp

theorem matchOpen_plain (c : Char) (t : Str) (h1 : c ≠ '\x7b') (h2 : c ≠ '%') :
    matchOpen (c :: t) = none := by
  simp [matchOpen, h1, h2]

theorem matchOpen_tag (t : Str) : matchOpen ('\x7b' :: '%' :: t) = some (['\x7b', '%'], t) := by
  simp [matchOpen]

theorem tryMoreAux_no_open (fuel : Nat) (s : Str) (h : matchOpen s = none) :
    tryMoreAux fuel s = (findContentClose s).map fun y => ([], y) := by
  cases fuel with
  | zero => rfl
  | succ n => simp [tryMoreAux, h]

theorem tryMore_no_open (s : Str) (h : matchOpen s = none) :
    tryMore s = (findContentClose s).map fun y => ([], y) :=
  tryMoreAux_no_open _ s h

theorem findContentClose_close_nil :
    findContentClose ['%', '\x7d'] = some ([], ['%', '\x7d'], []) := by decide

theorem matchTagNoEsc_whole (content : Str) (hne : content ≠ [])
    (hsafe : ∀ c ∈ content, c ≠ '\x7b' ∧ c ≠ '%' ∧ c ≠ '\n') :
    matchTagNoEsc ('\x7b' :: '%' :: (content ++ ['%', '\x7d'])) =
      some ⟨false, ['\x7b', '%'], content, ['%', '\x7d'], []⟩ := by
  obtain ⟨c0, cs, rfl⟩ := List.exists_cons_of_ne_nil hne
  have h0 := hsafe c0 (by simp)
  have hcc : ∀ c ∈ c0 :: cs, c ≠ '%' ∧ c ≠ '\n' :=
    fun c hc => ⟨(hsafe c hc).2.1, (hsafe c hc).2.2⟩
  have hfcc : findContentClose ((c0 :: cs) ++ ['%', '\x7d']) =
      some (c0 :: cs, ['%', '\x7d'], []) := by
    rw [findContentClose_append _ _ hcc, findContentClose_close_nil]
    simp
  have hop : matchOpen ((c0 :: cs) ++ ['%', '\x7d']) = none := by
    rw [List.cons_append]
    exact matchOpen_plain c0 _ h0.1 h0.2.1
  have htm : tryMore ((c0 :: cs) ++ ['%', '\x7d']) =
      some ([], c0 :: cs, ['%', '\x7d'], []) := by
    rw [tryMore_no_open _ hop, hfcc]
    rfl
  have hstep : matchTagNoEsc ('\x7b' :: '%' :: ((c0 :: cs) ++ ['%', '\x7d'])) =
      (tryMore ((c0 :: cs) ++ ['%', '\x7d'])).map fun x =>
        ⟨false, ['\x7b', '%'] ++ x.1, x.2.1, x.2.2.1, x.2.2.2⟩ := by
    simp only [matchTagNoEsc, matchOpen_tag]
  rw [hstep, htm]
  rfl

theorem matchTagAt_not_bs (c : Char) (t : Str) (h : c ≠ '\\') :
    matchTagAt (c :: t) = matchTagNoEsc (c :: t) := by
  simp [matchTagAt, h]

theorem matchTagAt_whole (content : Str) (hne : content ≠ [])
    (hsafe : ∀ c ∈ content, c ≠ '\x7b' ∧ c ≠ '%' ∧ c ≠ '\n') :
    matchTagAt ('\x7b' :: '%' :: (content ++ ['%', '\x7d'])) =
      some ⟨false, ['\x7b', '%'], content, ['%', '\x7d'], []⟩ := by
  rw [matchTagAt_not_bs _ _ (by decide)]
  exact matchTagNoEsc_whole content hne hsafe

theorem matchTagAt_whole_esc (content : Str) (hne : content ≠ [])
    (hsafe : ∀ c ∈ content, c ≠ '\x7b' ∧ c ≠ '%' ∧ c ≠ '\n') :
    matchTagAt ('\\' :: '\x7b' :: '%' :: (content ++ ['%', '\x7d'])) =
      some ⟨true, ['\x7b', '%'], content, ['%', '\x7d'], []⟩ := by
  simp [matchTagAt, matchTagNoEsc_whole content hne hsafe]

/-! ### Trimming and splitting -/

theorem mem_trimLeft (c : Char) (s : Str) (h : c ∈ trimLeft s) : c ∈ s :=
  (List.dropWhile_sublist _).mem h

theorem mem_trimRight (c : Char) (s : Str) (h : c ∈ trimRight s) : c ∈ s := by
  unfold trimRight at h
  rw [List.mem_reverse] at h
  exact List.mem_reverse.mp ((List.dropWhile_sublist _).mem h)

theorem mem_trimSpace (c : Char) (s : Str) (h : c ∈ trimSpace s) : c ∈ s :=
  mem_trimLeft c s (mem_trimRight c (trimLeft s) h)

theorem trimLeft_cons (c : Char) (r : Str) (h : goIsSpace c = false) :
    trimLeft (c :: r) = c :: r := by
  simp [trimLeft, h]

theorem trimRight_concat (xs : Str) (c : Char) (h : goIsSpace c = false) :
    trimRight (xs ++ [c]) = xs ++ [c] := by
  unfold trimRight
  rw [List.reverse_append]
  simp [h]

theorem dropWhile_eq_self_of (p : Char → Bool) (s : Str) (h : ∀ c ∈ s, p c = false) :
    s.dropWhile p = s := by
  cases s with
  | nil => rfl
  | cons c r => simp [List.dropWhile_cons, h c (by simp)]

theorem trimSpace_eq_self (s : Str) (h : ∀ c ∈ s, goIsSpace c = false) :
    trimSpace s = s := by
  unfold trimSpace trimLeft trimRight
  rw [dropWhile_eq_self_of _ s h,
    dropWhile_eq_self_of _ s.reverse fun c hc => h c (List.mem_reverse.mp hc),
    List.reverse_reverse]

theorem trimSpace_cons (c : Char) (t : Str) (hc : goIsSpace c = false)
    (hl : ∀ d, (c :: t).getLast? = some d → goIsSpace d = false) :
    trimSpace (c :: t) = c :: t := by
  unfold trimSpace
  rw [trimLeft_cons c t hc]
  rcases List.eq_nil_or_concat' (c :: t) with h | ⟨xs, d, hxs⟩
  · simp at h
  · rw [hxs]
    exact trimRight_concat xs d (hl d (by rw [hxs]; simp))

theorem splitDot_no_dot (xs : Str) (h : ∀ c ∈ xs, c ≠ '.') : splitDot xs = [xs] := by
  induction xs with
  | nil => rfl
  | cons c t ih =>
    have hc := h c (by simp)
    rw [splitDot, ih fun a ha => h a (by simp [ha])]
    simp [hc]

theorem splitDot_append (xs s : Str) (h : ∀ c ∈ xs, c ≠ '.') :
    splitDot (xs ++ '.' :: s) = xs :: splitDot s := by
  induction xs with
  | nil =>
    rw [List.nil_append, splitDot]
    simp
  | cons c t ih =>
    have hc := h c (by simp)
    rw [List.cons_append, splitDot, ih fun a ha => h a (by simp [ha])]
    simp [hc]

theorem processTag_keep (content : Str) (h : ∀ c ∈ content, c ≠ '.') :
    processTag content = .keep := by
  unfold processTag
  rw [splitDot_no_dot _ fun c hc => h c (mem_trimSpace c _ hc)]

theorem processTag_pair (n0 : Char) (nt : Str) (k0 : Char) (kt : Str)
    (hn : ∀ c ∈ n0 :: nt, c ≠ '.') (hk : ∀ c ∈ k0 :: kt, c ≠ '.')
    (hsp : trimSpace ((n0 :: nt) ++ '.' :: k0 :: kt) = (n0 :: nt) ++ '.' :: k0 :: kt) :
    processTag ((n0 :: nt) ++ '.' :: k0 :: kt) =
      .repl (n0.toUpper :: nt) (k0.toUpper :: kt)
        (replaceTemplateFallback
          (str "\x7b\x7b." ++ (n0.toUpper :: nt) ++ str "." ++
            (k0.toUpper :: kt) ++ str "\x7d\x7d")) := by
  unfold processTag
  rw [hsp, splitDot_append _ _ hn, splitDot_no_dot _ hk]
  rfl

theorem splitComma2_no_comma (s : Str) (h : ∀ c ∈ s, c ≠ ',') :
    splitComma2 s = (s, none) := by
  induction s with
  | nil => rfl
  | cons c t ih =>
    have hc := h c (by simp)
    rw [splitComma2, ih fun a ha => h a (by simp [ha])]
    simp [hc]

theorem splitComma2_append (xs s : Str) (h : ∀ c ∈ xs, c ≠ ',') :
    splitComma2 (xs ++ ',' :: s) = (xs, some s) := by
  induction xs with
  | nil =>
    rw [List.nil_append, splitComma2]
    simp
  | cons c t ih =>
    have hc := h c (by simp)
    rw [List.cons_append, splitComma2, ih fun a ha => h a (by simp [ha])]
    simp [hc]

theorem replaceTemplateFallback_no_comma (tag : Str) (h : ∀ c ∈ tag, c ≠ ',') :
    replaceTemplateFallback tag = tag := by
  unfold replaceTemplateFallback
  by_cases hf : hasSub (str "fallback") (lowerStr tag) = false
  · simp [hf]
  · have hb : ∀ c ∈ (tag.drop 2).take (tag.length - 4), c ≠ ',' :=
      fun c hc => h c (List.drop_subset _ _ (List.take_subset _ _ hc))
    simp [hf, splitComma2_no_comma _ hb]

/-! ### The escape pass on text without its pattern -/

theorem escapeMatchAt_none_of_not_sw (s : Str)
    (h : startsWithStr ['\x7b', '\x7b'] s = false) : escapeMatchAt s = none := by
  cases s with
  | nil => rfl
  | cons c r =>
    cases r with
    | nil =>
      by_cases hc : c = '\x7b' <;> simp [escapeMatchAt, hc]
    | cons d t =>
      rw [startsWithStr, startsWithStr] at h
      by_cases hc : c = '\x7b'
      · have hd : d ≠ '\x7b' := by
          intro hd
          rw [hc, hd] at h
          simp [startsWithStr] at h
        simp [escapeMatchAt, hc, hd]
      · simp [escapeMatchAt, hc]

theorem escapeAux_id (fuel : Nat) (s : Str) (h : hasSub ['\x7b', '\x7b'] s = false) :
    escapeAux fuel s = s := by
  induction fuel generalizing s with
  | zero => cases s <;> rfl
  | succ n ih =>
    cases s with
    | nil => rfl
    | cons c r =>
      rw [hasSub, Bool.or_eq_false_iff] at h
      simp [escapeAux, escapeMatchAt_none_of_not_sw _ h.1, ih r h.2]

theorem escapeGoPass_id (s : Str) (h : hasSub (str "\x7b\x7b") s = false) :
    escapeGoPass s = s :=
  escapeAux_id s.length s h

theorem hasSub_lblb_of_no_lb (s : Str) (h : '\x7b' ∉ s) :
    hasSub ['\x7b', '\x7b'] s = false := by
  induction s with
  | nil => rfl
  | cons c r ih =>
    have hc : c ≠ '\x7b' := fun hc => h (by simp [hc])
    rw [hasSub, Bool.or_eq_false_iff]
    refine ⟨?_, ih fun hr => h (by simp [hr])⟩
    rw [startsWithStr]
    simp [Ne.symm hc]

theorem hasSub_lblb_cons (c : Char) (s : Str) (h : '\x7b' ∉ s) :
    hasSub ['\x7b', '\x7b'] (c :: s) = false := by
  rw [hasSub, Bool.or_eq_false_iff]
  refine ⟨?_, hasSub_lblb_of_no_lb s h⟩
  cases s with
  | nil => rw [startsWithStr]; simp [startsWithStr]
  | cons d t =>
    have hd : d ≠ '\x7b' := fun hd => h (by simp [hd])
    rw [startsWithStr, startsWithStr]
    simp [Ne.symm hd]

/-! ### One whole-body tag through the tag pass -/

theorem tagsPassAux_nil (fuel : Nat) (idx : Index) :
    tagsPassAux fuel [] idx = some ([], idx) := by
  cases fuel <;> rfl

theorem tagsPassAux_single (c : Char) (r : Str) (idx : Index) (m : TagMatch)
    (hm : matchTagAt (c :: r) = some m) (hesc : m.esc = false) (hrest : m.rest = []) :
    tagsPassAux (c :: r).length (c :: r) idx =
      (match processTag m.content with
       | .keep => some (m.opens ++ m.content ++ m.closes, idx)
       | .crash => none
       | .repl ns key out => some (out, idxAdd idx ns key)) := by
  rw [List.length_cons, tagsPassAux, hm]
  cases hp : processTag m.content with
  | keep => simp [hesc, hrest, hp, tagsPassAux_nil]
  | crash => simp [hesc, hrest, hp]
  | repl ns key out => simp [hesc, hrest, hp, tagsPassAux_nil]

theorem tagsPassAux_single_esc (c : Char) (r : Str) (idx : Index) (m : TagMatch)
    (hm : matchTagAt (c :: r) = some m) (hesc : m.esc = true) (hrest : m.rest = []) :
    tagsPassAux (c :: r).length (c :: r) idx =
      some (m.opens ++ m.content ++ m.closes, idx) := by
  rw [List.length_cons, tagsPassAux, hm]
  simp [hesc, hrest, tagsPassAux_nil]

/-! ### Character facts -/

theorem plainChar_spec (c : Char) (h : plainChar c = true) :
    c ≠ '.' ∧ c ≠ ',' ∧ c ≠ '%' ∧ c ≠ '\x7b' ∧ c ≠ '\x7d' ∧ c ≠ '\n' ∧
      c ≠ '\\' ∧ goIsSpace c = false := by
  unfold plainChar at h
  simp only [Bool.not_eq_eq_eq_not, Bool.not_true, Bool.or_eq_false_iff,
    decide_eq_false_iff_not] at h
  exact ⟨h.1.1.1.1.1.1.1, h.1.1.1.1.1.1.2, h.1.1.1.1.1.2, h.1.1.1.1.2,
    h.1.1.1.2, h.1.1.2, h.1.2, h.2⟩

theorem char_toNat_ofNat (n : Nat) (h : n < 55296) : (Char.ofNat n).toNat = n := by
  rw [Char.ofNat, dif_pos (Or.inl h)]
  show (UInt32.ofNat' n _).toBitVec.toNat = n
  rw [UInt32.ofNat']
  exact BitVec.toNat_ofNatLt _ _

theorem char_toUpper_cases (c : Char) :
    c.toUpper = c ∨ (65 ≤ c.toUpper.toNat ∧ c.toUpper.toNat ≤ 90) := by
  unfold Char.toUpper
  by_cases h : 97 ≤ c.toNat ∧ c.toNat ≤ 122
  · right
    rw [if_pos h, char_toNat_ofNat _ (by omega)]
    omega
  · left
    rw [if_neg h]

theorem goIsSpace_of_range (c : Char) (h1 : 33 ≤ c.toNat) (h2 : c.toNat ≤ 126) :
    goIsSpace c = false := by
  unfold goIsSpace
  simp only [Bool.or_eq_false_iff, Bool.and_eq_false_iff, decide_eq_false_iff_not]
  omega

theorem toUpper_plainChar (c : Char) (h : plainChar c = true) :
    plainChar c.toUpper = true := by
  rcases char_toUpper_cases c with hc | hc
  · rw [hc]; exact h
  · have hne : ∀ d : Char, (d.toNat < 65 ∨ 90 < d.toNat) → c.toUpper ≠ d := by
      intro d hd he
      rw [he] at hc
      omega
    have hsp : goIsSpace c.toUpper = false :=
      goIsSpace_of_range _ (by omega) (by omega)
    unfold plainChar
    simp [hne '.' (by decide), hne ',' (by decide), hne '%' (by decide),
      hne '\x7b' (by decide), hne '\x7d' (by decide), hne '\n' (by decide),
      hne '\\' (by decide), hsp]

/-! # Claims -/

/-- C1: a well-formed unescaped tag `{%ns.key%}` whose content has two
dot-separated segments transpiles to the underlying engine's two-segment
directive `{{.Ns.Key}}`: only the first character of each segment is
uppercased and the remainder of each segment is kept exactly as written; the
normalized pair is the only index entry.  The segments range over non-empty
strings of non-separator, non-delimiter, non-whitespace characters whose
first character is ASCII (where Go's byte slicing agrees with rune
uppercasing). -/
theorem C1_wellformed_two_segment_tag (n0 k0 : Char) (nt kt : Str)
    (hns : ∀ c ∈ n0 :: nt, plainChar c = true)
    (hks : ∀ c ∈ k0 :: kt, plainChar c = true)
    (_hn0 : n0.toNat < 128) (_hk0 : k0.toNat < 128) :
    prepareTemplateTags
        ('\x7b' :: '%' :: (((n0 :: nt) ++ '.' :: (k0 :: kt)) ++ ['%', '\x7d'])) =
      some (str "\x7b\x7b." ++ ((n0.toUpper :: nt) ++ (str "." ++
              ((k0.toUpper :: kt) ++ str "\x7d\x7d"))),
            [(n0.toUpper :: nt, [k0.toUpper :: kt])]) := by
  have pn := fun c hc => plainChar_spec c (hns c hc)
  have pk := fun c hc => plainChar_spec c (hks c hc)
  have hmemc : ∀ c ∈ (n0 :: nt) ++ '.' :: (k0 :: kt),
      c ≠ '\x7b' ∧ c ≠ '%' ∧ c ≠ '\n' := by
    intro c hc
    rcases List.mem_append.mp hc with hc | hc
    · exact ⟨(pn c hc).2.2.2.1, (pn c hc).2.2.1, (pn c hc).2.2.2.2.2.1⟩
    · rcases List.mem_cons.mp hc with rfl | hc
      · refine ⟨by decide, by decide, by decide⟩
      · exact ⟨(pk c hc).2.2.2.1, (pk c hc).2.2.1, (pk c hc).2.2.2.2.2.1⟩
  have hnolb : '\x7b' ∉ '%' :: (((n0 :: nt) ++ '.' :: (k0 :: kt)) ++ ['%', '\x7d']) := by
    intro hmem
    rcases List.mem_cons.mp hmem with h | h
    · exact absurd h (by decide)
    · rcases List.mem_append.mp h with h | h
      · exact absurd rfl (hmemc _ h).1
      · simp at h
  have hesc := escapeGoPass_id _ (hasSub_lblb_cons '\x7b' _ hnolb)
  have hmatch := matchTagAt_whole _ (by simp) hmemc
  have hsp : trimSpace ((n0 :: nt) ++ '.' :: (k0 :: kt)) =
      (n0 :: nt) ++ '.' :: (k0 :: kt) := by
    apply trimSpace_eq_self
    intro c hc
    rcases List.mem_append.mp hc with h | h
    · exact (pn c h).2.2.2.2.2.2.2
    · rcases List.mem_cons.mp h with rfl | h
      · decide
      · exact (pk c h).2.2.2.2.2.2.2
  have hrepl := processTag_pair n0 nt k0 kt
    (fun c hc => (pn c hc).1) (fun c hc => (pk c hc).1) hsp
  have hnc : ∀ c ∈ str "\x7b\x7b." ++ (n0.toUpper :: nt) ++ str "." ++
      (k0.toUpper :: kt) ++ str "\x7d\x7d", c ≠ ',' := by
    intro c hc
    simp only [List.append_assoc, List.mem_append, List.mem_cons] at hc
    rcases hc with h | (h | h) | h | (h | h) | h
    · exact (by decide : ∀ x ∈ str "\x7b\x7b.", x ≠ ',') c h
    · exact h ▸ (plainChar_spec _ (toUpper_plainChar n0 (hns n0 (by simp)))).2.1
    · exact (pn c (by simp [h])).2.1
    · exact (by decide : ∀ x ∈ str ".", x ≠ ',') c h
    · exact h ▸ (plainChar_spec _ (toUpper_plainChar k0 (hks k0 (by simp)))).2.1
    · exact (pk c (by simp [h])).2.1
    · exact (by decide : ∀ x ∈ str "\x7d\x7d", x ≠ ',') c h
  simp only [prepareTemplateTags, hesc]
  rw [tagsPassAux_single _ _ [] _ hmatch rfl rfl, hrepl,
    replaceTemplateFallback_no_comma _ (by simpa using hnc)]
  simp [idxAdd]

/-- Witness for C1 at the concrete tag `{%user.name%}`. -/
theorem C1_witness :
    prepareTemplateTags
        ('\x7b' :: '%' :: ((('u' :: ['s', 'e', 'r']) ++ '.' :: ('n' :: ['a', 'm', 'e'])) ++
          ['%', '\x7d'])) =
      some (str "\x7b\x7b.User.Name\x7d\x7d", [(str "User", [str "Name"])]) := by
  have h := C1_wellformed_two_segment_tag 'u' 'n' ['s', 'e', 'r'] ['a', 'm', 'e']
    (by decide) (by decide) (by decide) (by decide)
  exact h.trans (by decide)

/-- C3 as stated is false: a tag with two dot-segments and more than one
extra comma clause is NOT left unmodified.  At `{%a.b,fallback=foo,another%}`
the transpiler emits a conditional whose fallback text is `foo,another`. -/
theorem C3_counterexample :
    (prepareTemplateTags (str "\x7b%a.b,fallback=foo,another%\x7d")).map Prod.fst =
      some (str
        "\x7b\x7bif .A.B\x7d\x7d\x7b\x7b.A.B\x7d\x7d\x7b\x7belse\x7d\x7dfoo,another\x7b\x7bend\x7d\x7d") ∧
    (prepareTemplateTags (str "\x7b%a.b,fallback=foo,another%\x7d")).map Prod.fst ≠
      some (str "\x7b%a.b,fallback=foo,another%\x7d") := by
  constructor
  · decide
  · decide

/-- C3 (amended): a tag whose content has fewer than two dot-segments — in
particular a tag with extra comma clauses but no dot, like
`{%Test,fallback=foo,another%}` — is left completely unmodified and records
nothing, with no error.  (A tag with two dot-segments and extra comma clauses
is transformed, the extra clauses becoming part of the fallback text.) -/
theorem C3_few_segments_tag_kept (content : Str) (hne : content ≠ [])
    (hnodot : ∀ c ∈ content, c ≠ '.')
    (hsafe : ∀ c ∈ content, c ≠ '\x7b' ∧ c ≠ '%' ∧ c ≠ '\n') :
    prepareTemplateTags ('\x7b' :: '%' :: (content ++ ['%', '\x7d'])) =
      some ('\x7b' :: '%' :: (content ++ ['%', '\x7d']), []) := by
  have hnolb : '\x7b' ∉ '%' :: (content ++ ['%', '\x7d']) := by
    intro hmem
    rcases List.mem_cons.mp hmem with h | h
    · exact absurd h (by decide)
    · rcases List.mem_append.mp h with h | h
      · exact absurd rfl (hsafe _ h).1
      · simp at h
  have hesc := escapeGoPass_id _ (hasSub_lblb_cons '\x7b' _ hnolb)
  have hmatch := matchTagAt_whole _ hne hsafe
  simp only [prepareTemplateTags, hesc]
  rw [tagsPassAux_single _ _ [] _ hmatch rfl rfl, processTag_keep _ hnodot]
  simp

/-- Witness for the amended C3 at `{%Test,fallback=foo,another%}` (the
repository's own "too many parameters" test case). -/
theorem C3_witness :
    prepareTemplateTags
        ('\x7b' :: '%' :: ((str "Test,fallback=foo,another") ++ ['%', '\x7d'])) =
      some ('\x7b' :: '%' :: ((str "Test,fallback=foo,another") ++ ['%', '\x7d']), []) :=
  C3_few_segments_tag_kept (str "Test,fallback=foo,another")
    (by decide) (by decide) (by decide)

/-- C4: a tag whose opening delimiter is immediately preceded by a backslash
is emitted as its own text with the backslash removed and without any
transformation, and nothing is recorded in the variable index. -/
theorem C4_escaped_tag_kept_literal (content : Str) (hne : content ≠ [])
    (hsafe : ∀ c ∈ content, c ≠ '\x7b' ∧ c ≠ '%' ∧ c ≠ '\n') :
    prepareTemplateTags ('\\' :: '\x7b' :: '%' :: (content ++ ['%', '\x7d'])) =
      some ('\x7b' :: '%' :: (content ++ ['%', '\x7d']), []) := by
  have hnolb : '\x7b' ∉ '%' :: (content ++ ['%', '\x7d']) := by
    intro hmem
    rcases List.mem_cons.mp hmem with h | h
    · exact absurd h (by decide)
    · rcases List.mem_append.mp h with h | h
      · exact absurd rfl (hsafe _ h).1
      · simp at h
  have hsub : hasSub ['\x7b', '\x7b'] ('\\' :: '\x7b' :: '%' :: (content ++ ['%', '\x7d'])) = false := by
    rw [hasSub, Bool.or_eq_false_iff]
    refine ⟨by rw [startsWithStr]; simp, ?_⟩
    exact hasSub_lblb_cons '\x7b' _ hnolb
  have hesc := escapeGoPass_id _ hsub
  have hmatch := matchTagAt_whole_esc _ hne hsafe
  simp only [prepareTemplateTags, hesc]
  rw [tagsPassAux_single_esc _ _ [] _ hmatch rfl rfl]
  simp

/-- Witness for C4 at `\{%user.name%}`: the dot-segments are present but the
escape suppresses the transformation and the index entry. -/
theorem C4_witness :
    prepareTemplateTags ('\\' :: '\x7b' :: '%' :: ((str "user.name") ++ ['%', '\x7d'])) =
      some ('\x7b' :: '%' :: ((str "user.name") ++ ['%', '\x7d']), []) :=
  C4_escaped_tag_kept_literal (str "user.name") (by decide) (by decide)

/-! ### Fallback-clause machinery (C2) -/

theorem startsWithStr_self_append (p t : Str) : startsWithStr p (p ++ t) = true := by
  induction p with
  | nil => rfl
  | cons c r ih => simp [startsWithStr, ih]

theorem hasSub_of_startsWith (pat t : Str) (h : startsWithStr pat t = true)
    (xs : Str) : hasSub pat (xs ++ t) = true := by
  induction xs with
  | nil =>
    cases t with
    | nil => exact h
    | cons c r => rw [List.nil_append, hasSub, h, Bool.true_or]
  | cons c xs ih => rw [List.cons_append, hasSub, ih, Bool.or_true]

theorem fbChar_spec (c : Char) (h : fbChar c = true) :
    c ≠ '.' ∧ c ≠ '%' ∧ c ≠ '\x7b' ∧ c ≠ '\n' := by
  unfold fbChar at h
  simp only [Bool.not_eq_eq_eq_not, Bool.not_true, Bool.or_eq_false_iff,
    decide_eq_false_iff_not] at h
  exact ⟨h.1.1.1, h.1.1.2, h.1.2, h.2⟩

theorem removeMarkersAux_markerFree (fuel : Nat) (s : Str) (hf : s.length ≤ fuel)
    (hm : markerFree s = true) : removeMarkersAux fuel s = s := by
  induction fuel generalizing s with
  | zero =>
    cases s with
    | nil => rfl
    | cons c r => simp at hf
  | succ n ih =>
    cases s with
    | nil => rfl
    | cons c r =>
      rw [markerFree, Bool.and_eq_true, Option.isNone_iff_eq_none] at hm
      rw [removeMarkersAux, hm.1]
      rw [ih r (by simpa using Nat.le_of_succ_le_succ (by simpa using hf)) hm.2]

theorem matchMarker_fallback_eq (fb : Str) :
    matchMarker (str "fallback=" ++ fb) = some fb := by
  rw [show str "fallback=" ++ fb =
    'f' :: 'a' :: 'l' :: 'l' :: 'b' :: 'a' :: 'c' :: 'k' :: '=' :: fb from rfl]
  rw [matchMarker]
  rw [show ('f' :: 'a' :: 'l' :: 'l' :: 'b' :: 'a' :: 'c' :: 'k' :: '=' :: fb).dropWhile reSpace =
    'f' :: 'a' :: 'l' :: 'l' :: 'b' :: 'a' :: 'c' :: 'k' :: '=' :: fb by
      rw [List.dropWhile_cons]; simp [reSpace]]
  rw [show dropFallbackWord ('f' :: 'a' :: 'l' :: 'l' :: 'b' :: 'a' :: 'c' :: 'k' :: '=' :: fb) =
    some ('=' :: fb) by rw [dropFallbackWord, if_pos (by decide)]]
  simp [List.dropWhile_cons, reSpace]

theorem removeMarkers_fallback_eq (fb : Str) (hmf : markerFree fb = true) :
    removeMarkers (str "fallback=" ++ fb) = fb := by
  rw [removeMarkers]
  rw [show (str "fallback=" ++ fb).length = (8 + fb.length) + 1 by simp [str]; omega]
  rw [show str "fallback=" ++ fb =
    'f' :: ('a' :: 'l' :: 'l' :: 'b' :: 'a' :: 'c' :: 'k' :: '=' :: fb) from rfl]
  rw [removeMarkersAux]
  rw [show matchMarker ('f' :: 'a' :: 'l' :: 'l' :: 'b' :: 'a' :: 'c' :: 'k' :: '=' :: fb) =
    some fb from matchMarker_fallback_eq fb]
  exact removeMarkersAux_markerFree _ fb (by omega) hmf

theorem hasSub_fallback_marker (xs ys : Str) :
    hasSub (str "fallback") (lowerStr (xs ++ (str "fallback=" ++ ys))) = true := by
  unfold lowerStr
  rw [List.map_append]
  apply hasSub_of_startsWith
  rw [show str "fallback=" ++ ys = str "fallback" ++ ('=' :: ys) from rfl, List.map_append]
  rw [show List.map goToLower (str "fallback") = str "fallback" from by decide]
  exact startsWithStr_self_append _ _

theorem tagBody_extract (inner : Str) :
    ((('\x7b' :: '\x7b' :: (inner ++ ['\x7d', '\x7d'])).drop 2).take
      (('\x7b' :: '\x7b' :: (inner ++ ['\x7d', '\x7d'])).length - 4)) = inner := by
  have h2 : ('\x7b' :: '\x7b' :: (inner ++ ['\x7d', '\x7d'])).drop 2 = inner ++ ['\x7d', '\x7d'] := rfl
  have hl : ('\x7b' :: '\x7b' :: (inner ++ ['\x7d', '\x7d'])).length - 4 = inner.length := by
    simp [List.length_append]
  rw [h2, hl]
  exact List.take_left inner _

/-- Expanding a directive `{{v,fallback=f}}` whose variable part `v` has no
comma and no whitespace, and whose fallback text contains no further marker. -/
theorem replaceTemplateFallback_clause (v f : Str)
    (hv : ∀ c ∈ v, c ≠ ',') (hvs : ∀ c ∈ v, goIsSpace c = false)
    (hmf : markerFree f = true) :
    replaceTemplateFallback
        ('\x7b' :: '\x7b' :: ((v ++ ',' :: (str "fallback=" ++ f)) ++ ['\x7d', '\x7d'])) =
      str "\x7b\x7bif " ++ v ++ str "\x7d\x7d\x7b\x7b" ++ v ++
        str "\x7d\x7d\x7b\x7belse\x7d\x7d" ++ trimSpace f ++ str "\x7b\x7bend\x7d\x7d" := by
  have hsubeq : '\x7b' :: '\x7b' :: ((v ++ ',' :: (str "fallback=" ++ f)) ++ ['\x7d', '\x7d']) =
      ('\x7b' :: '\x7b' :: (v ++ [','])) ++ (str "fallback=" ++ (f ++ ['\x7d', '\x7d'])) := by
    simp
  have hsub : hasSub (str "fallback")
      (lowerStr ('\x7b' :: '\x7b' :: ((v ++ ',' :: (str "fallback=" ++ f)) ++ ['\x7d', '\x7d']))) = true := by
    rw [hsubeq]
    exact hasSub_fallback_marker _ _
  rw [replaceTemplateFallback]
  rw [hsub, if_neg (by simp)]
  rw [tagBody_extract]
  simp only [splitComma2_append _ _ hv]
  simp only [trimSpace_eq_self _ hvs, removeMarkers_fallback_eq _ hmf]

/-- C2 (amended): for a tag `{%ns.key,fallback=text%}` whose fallback text
contains no dot and no further fallback marker and does not end in
whitespace, transpilation emits the conditional triple
`{{if .Ns.Key}}{{.Ns.Key}}{{else}}text'{{end}}` where `text'` is the fallback
text trimmed of leading/trailing whitespace and otherwise preserved verbatim —
commas, equal signs, inner whitespace and non-ASCII characters included.
(Without the no-dot/no-marker proviso the text is mangled, see
`C2_counterexample`.) -/
theorem C2_fallback_clause_tag (n0 k0 : Char) (nt kt fb : Str)
    (hns : ∀ c ∈ n0 :: nt, plainChar c = true)
    (hks : ∀ c ∈ k0 :: kt, plainChar c = true)
    (hfb : ∀ c ∈ fb, fbChar c = true)
    (hmf : markerFree fb = true)
    (hlast : ∀ c, fb.getLast? = some c → goIsSpace c = false)
    (_hn0 : n0.toNat < 128) (_hk0 : k0.toNat < 128) :
    prepareTemplateTags
        ('\x7b' :: '%' :: (((n0 :: nt) ++ '.' ::
          ((k0 :: kt) ++ ',' :: (str "fallback=" ++ fb))) ++ ['%', '\x7d'])) =
      some
        (str "\x7b\x7bif " ++ ('.' :: ((n0.toUpper :: nt) ++ '.' :: (k0.toUpper :: kt))) ++
           str "\x7d\x7d\x7b\x7b" ++ ('.' :: ((n0.toUpper :: nt) ++ '.' :: (k0.toUpper :: kt))) ++
           str "\x7d\x7d\x7b\x7belse\x7d\x7d" ++ trimSpace fb ++ str "\x7b\x7bend\x7d\x7d",
         [(n0.toUpper :: nt, [k0.toUpper :: (kt ++ ',' :: (str "fallback=" ++ fb))])]) := by
  have pn := fun c hc => plainChar_spec c (hns c hc)
  have pk := fun c hc => plainChar_spec c (hks c hc)
  have pf := fun c hc => fbChar_spec c (hfb c hc)
  have hmemc : ∀ c ∈ (n0 :: nt) ++ '.' :: ((k0 :: kt) ++ ',' :: (str "fallback=" ++ fb)),
      c ≠ '\x7b' ∧ c ≠ '%' ∧ c ≠ '\n' := by
    intro c hc
    rcases List.mem_append.mp hc with h | h
    · exact ⟨(pn c h).2.2.2.1, (pn c h).2.2.1, (pn c h).2.2.2.2.2.1⟩
    · rcases List.mem_cons.mp h with rfl | h
      · exact ⟨by decide, by decide, by decide⟩
      · rcases List.mem_append.mp h with h | h
        · exact ⟨(pk c h).2.2.2.1, (pk c h).2.2.1, (pk c h).2.2.2.2.2.1⟩
        · rcases List.mem_cons.mp h with rfl | h
          · exact ⟨by decide, by decide, by decide⟩
          · rcases List.mem_append.mp h with h | h
            · exact (by decide : ∀ x ∈ str "fallback=", x ≠ '\x7b' ∧ x ≠ '%' ∧ x ≠ '\n') c h
            · exact ⟨(pf c h).2.2.1, (pf c h).2.1, (pf c h).2.2.2⟩
  have hnolb : '\x7b' ∉ '%' ::
      (((n0 :: nt) ++ '.' :: ((k0 :: kt) ++ ',' :: (str "fallback=" ++ fb))) ++ ['%', '\x7d']) := by
    intro hmem
    rcases List.mem_cons.mp hmem with h | h
    · exact absurd h (by decide)
    · rcases List.mem_append.mp h with h | h
      · exact absurd rfl (hmemc _ h).1
      · simp at h
  have hesc := escapeGoPass_id _ (hasSub_lblb_cons '\x7b' _ hnolb)
  have hmatch := matchTagAt_whole _ (by simp) hmemc
  have hlastc : ∀ d,
      ((n0 :: nt) ++ '.' :: ((k0 :: kt) ++ ',' :: (str "fallback=" ++ fb))).getLast? = some d →
      goIsSpace d = false := by
    intro d hd
    rw [List.getLast?_append_of_ne_nil _ (by simp)] at hd
    rw [show ('.' :: ((k0 :: kt) ++ ',' :: (str "fallback=" ++ fb))) =
      ['.'] ++ ((k0 :: kt) ++ ',' :: (str "fallback=" ++ fb)) from rfl] at hd
    rw [List.getLast?_append_of_ne_nil _ (by simp)] at hd
    rw [List.getLast?_append_of_ne_nil _ (by simp)] at hd
    rw [show (',' :: (str "fallback=" ++ fb)) = [','] ++ (str "fallback=" ++ fb) from rfl] at hd
    rw [List.getLast?_append_of_ne_nil _ (by simp [str])] at hd
    rcases List.eq_nil_or_concat' fb with hfbe | ⟨ys, e, hfbe⟩
    · rw [hfbe, List.append_nil,
        show (str "fallback=").getLast? = some '=' from by decide] at hd
      obtain rfl : '=' = d := Option.some.inj hd
      decide
    · rw [hfbe, ← List.append_assoc, List.getLast?_concat] at hd
      obtain rfl : e = d := Option.some.inj hd
      exact hlast e (by rw [hfbe]; exact List.getLast?_concat _)
  have hsp : trimSpace ((n0 :: nt) ++ '.' :: ((k0 :: kt) ++ ',' :: (str "fallback=" ++ fb))) =
      (n0 :: nt) ++ '.' :: ((k0 :: kt) ++ ',' :: (str "fallback=" ++ fb)) :=
    trimSpace_cons n0 (nt ++ '.' :: ((k0 :: kt) ++ ',' :: (str "fallback=" ++ fb)))
      (pn n0 (by simp)).2.2.2.2.2.2.2 hlastc
  have hnodot2 : ∀ c ∈ k0 :: (kt ++ ',' :: (str "fallback=" ++ fb)), c ≠ '.' := by
    intro c hc
    rcases List.mem_cons.mp hc with rfl | hc
    · exact (pk c (by simp)).1
    · rcases List.mem_append.mp hc with h | h
      · exact (pk c (by simp [h])).1
      · rcases List.mem_cons.mp h with rfl | h
        · decide
        · rcases List.mem_append.mp h with h | h
          · exact (by decide : ∀ x ∈ str "fallback=", x ≠ '.') c h
          · exact (pf c h).1
  have hrepl := processTag_pair n0 nt k0 (kt ++ ',' :: (str "fallback=" ++ fb))
    (fun c hc => (pn c hc).1) hnodot2 hsp
  have hvc : ∀ c ∈ '.' :: ((n0.toUpper :: nt) ++ '.' :: (k0.toUpper :: kt)), c ≠ ',' := by
    intro c hc
    rcases List.mem_cons.mp hc with rfl | hc
    · decide
    · rcases List.mem_append.mp hc with h | h
      · rcases List.mem_cons.mp h with rfl | h
        · exact (plainChar_spec _ (toUpper_plainChar n0 (hns n0 (by simp)))).2.1
        · exact (pn c (by simp [h])).2.1
      · rcases List.mem_cons.mp h with rfl | h
        · decide
        · rcases List.mem_cons.mp h with rfl | h
          · exact (plainChar_spec _ (toUpper_plainChar k0 (hks k0 (by simp)))).2.1
          · exact (pk c (by simp [h])).2.1
  have hvs : ∀ c ∈ '.' :: ((n0.toUpper :: nt) ++ '.' :: (k0.toUpper :: kt)),
      goIsSpace c = false := by
    intro c hc
    rcases List.mem_cons.mp hc with rfl | hc
    · decide
    · rcases List.mem_append.mp hc with h | h
      · rcases List.mem_cons.mp h with rfl | h
        · exact (plainChar_spec _ (toUpper_plainChar n0 (hns n0 (by simp)))).2.2.2.2.2.2.2
        · exact (pn c (by simp [h])).2.2.2.2.2.2.2
      · rcases List.mem_cons.mp h with rfl | h
        · decide
        · rcases List.mem_cons.mp h with rfl | h
          · exact (plainChar_spec _ (toUpper_plainChar k0 (hks k0 (by simp)))).2.2.2.2.2.2.2
          · exact (pk c (by simp [h])).2.2.2.2.2.2.2
  have hdir : str "\x7b\x7b." ++ (n0.toUpper :: nt) ++ str "." ++
      (k0.toUpper :: (kt ++ ',' :: (str "fallback=" ++ fb))) ++ str "\x7d\x7d" =
      '\x7b' :: '\x7b' ::
        ((('.' :: ((n0.toUpper :: nt) ++ '.' :: (k0.toUpper :: kt))) ++
          ',' :: (str "fallback=" ++ fb)) ++ ['\x7d', '\x7d']) := by
    simp [str]
  simp only [prepareTemplateTags, hesc]
  rw [tagsPassAux_single _ _ [] _ hmatch rfl rfl]
  simp only [List.cons_append] at hrepl ⊢
  rw [hrepl, hdir, replaceTemplateFallback_clause _ _ hvc hvs hmf]
  simp [idxAdd]

/-- C2 as stated is false: the transpiler splits the whole tag content on
dots before extracting the fallback clause, so a fallback text containing a
dot is not preserved verbatim.  At `{%a.b,fallback=x.y%}` the emitted
fallback text is `x`, not `x.y`. -/
theorem C2_counterexample :
    (prepareTemplateTags (str "\x7b%a.b,fallback=x.y%\x7d")).map Prod.fst =
      some (str
        "\x7b\x7bif .A.B\x7d\x7d\x7b\x7b.A.B\x7d\x7d\x7b\x7belse\x7d\x7dx\x7b\x7bend\x7d\x7d") ∧
    (prepareTemplateTags (str "\x7b%a.b,fallback=x.y%\x7d")).map Prod.fst ≠
      some (str
        "\x7b\x7bif .A.B\x7d\x7d\x7b\x7b.A.B\x7d\x7d\x7b\x7belse\x7d\x7dx.y\x7b\x7bend\x7d\x7d") := by
  constructor
  · decide
  · decide

/-- Witness for the amended C2 at `{%inbox.xxx,fallback=föö bäρ%}` (one of
the repository's test cases), whose fallback text contains whitespace and
non-ASCII characters. -/
theorem C2_witness :
    prepareTemplateTags
        ('\x7b' :: '%' :: ((('i' :: str "nbox") ++ '.' ::
          (('x' :: str "xx") ++ ',' :: (str "fallback=" ++ str "föö bäρ"))) ++ ['%', '\x7d'])) =
      some
        (str "\x7b\x7bif .Inbox.Xxx\x7d\x7d\x7b\x7b.Inbox.Xxx\x7d\x7d\x7b\x7belse\x7d\x7dföö bäρ\x7b\x7bend\x7d\x7d",
         [(str "Inbox", [str "Xxx,fallback=föö bäρ"])]) := by
  have h := C2_fallback_clause_tag 'i' 'x' (str "nbox") (str "xx") (str "föö bäρ")
    (by decide) (by decide) (by decide) (by decide) (by decide) (by decide) (by decide)
  exact h.trans (by decide)

/-! ### The escape pass on text containing its pattern (C5) -/

theorem findCloseBB_close (r : Str) : findCloseBB ('\x7d' :: '\x7d' :: r) = some ([], r) := rfl

theorem findCloseBB_cons_step (c : Char) (r : Str) (h1 : c ≠ '\x7d') (h2 : c ≠ '\n') :
    findCloseBB (c :: r) = (findCloseBB r).map fun x => (c :: x.1, x.2) := by
  conv_lhs => rw [findCloseBB.eq_def]
  simp [h1, h2]

theorem findCloseBB_rb_step (c2 : Char) (r2 : Str) (h2 : c2 ≠ '\x7d') :
    findCloseBB ('\x7d' :: c2 :: r2) =
      (findCloseBB (c2 :: r2)).map fun x => ('\x7d' :: x.1, x.2) := by
  conv_lhs => rw [findCloseBB.eq_def]
  simp [h2]

theorem findCloseBB_append (mid post : Str) (h : ∀ c ∈ mid, c ≠ '\x7d' ∧ c ≠ '\n') :
    findCloseBB (mid ++ '\x7d' :: '\x7d' :: post) = some (mid, post) := by
  induction mid with
  | nil => exact findCloseBB_close post
  | cons c t ih =>
    have hc := h c (by simp)
    rw [List.cons_append, findCloseBB_cons_step c _ hc.1 hc.2,
      ih fun a ha => h a (by simp [ha])]
    rfl

theorem findCloseBB_decomp (s : Str) : ∀ mid rest, findCloseBB s = some (mid, rest) →
    s = mid ++ '\x7d' :: '\x7d' :: rest := by
  induction s with
  | nil => intro mid rest h; simp [findCloseBB] at h
  | cons c1 r1 ih =>
    intro mid rest h
    by_cases h1 : c1 = '\x7d'
    · subst h1
      cases r1 with
      | nil => simp [findCloseBB] at h
      | cons c2 r2 =>
        by_cases h2 : c2 = '\x7d'
        · subst h2
          rw [findCloseBB_close] at h
          obtain ⟨rfl, rfl⟩ := Prod.mk.inj (Option.some.inj h)
          rfl
        · rw [findCloseBB_rb_step c2 r2 h2] at h
          rcases Option.map_eq_some'.mp h with ⟨⟨mid', rest'⟩, hm, he⟩
          obtain ⟨rfl, rfl⟩ := Prod.mk.inj he
          rw [List.cons_append, ← ih mid' rest' hm]
    · by_cases h2 : c1 = '\n'
      · subst h2
        simp [findCloseBB] at h
      · rw [findCloseBB_cons_step c1 r1 h1 h2] at h
        rcases Option.map_eq_some'.mp h with ⟨⟨mid', rest'⟩, hm, he⟩
        obtain ⟨rfl, rfl⟩ := Prod.mk.inj he
        rw [List.cons_append, ← ih mid' rest' hm]

theorem escapeMatchAt_open (r : Str) :
    escapeMatchAt ('\x7b' :: '\x7b' :: r) = findCloseBB r := rfl

theorem escapeMatchAt_decomp (s mid rest : Str) (h : escapeMatchAt s = some (mid, rest)) :
    s = '\x7b' :: '\x7b' :: (mid ++ '\x7d' :: '\x7d' :: rest) := by
  cases s with
  | nil => simp [escapeMatchAt] at h
  | cons c1 r1 =>
    by_cases h1 : c1 = '\x7b'
    · subst h1
      cases r1 with
      | nil => simp [escapeMatchAt] at h
      | cons c2 r2 =>
        by_cases h2 : c2 = '\x7b'
        · subst h2
          rw [escapeMatchAt_open] at h
          rw [findCloseBB_decomp r2 mid rest h]
        · rw [escapeMatchAt.eq_def] at h
          simp [h2] at h
    · rw [escapeMatchAt.eq_def] at h
      simp [h1] at h

theorem escapeAux_fuel : ∀ (n : Nat) (s : Str), s.length ≤ n → ∀ f1 f2, s.length ≤ f1 →
    s.length ≤ f2 → escapeAux f1 s = escapeAux f2 s := by
  intro n
  induction n with
  | zero =>
    intro s hs f1 f2 _ _
    have : s = [] := List.length_eq_zero.mp (Nat.le_zero.mp hs)
    subst this
    cases f1 <;> cases f2 <;> rfl
  | succ n ih =>
    intro s hs f1 f2 h1 h2
    cases s with
    | nil => cases f1 <;> cases f2 <;> rfl
    | cons c r =>
      obtain ⟨g1, rfl⟩ : ∃ g, f1 = g + 1 := ⟨f1 - 1, by simp at h1; omega⟩
      obtain ⟨g2, rfl⟩ : ∃ g, f2 = g + 1 := ⟨f2 - 1, by simp at h2; omega⟩
      cases hm : escapeMatchAt (c :: r) with
      | none =>
        have hr : r.length ≤ n := by simp at hs; omega
        simp only [escapeAux, hm]
        rw [ih r hr g1 g2 (by simp at h1; omega) (by simp at h2; omega)]
      | some x =>
        obtain ⟨mid, rest⟩ := x
        have hdec := escapeMatchAt_decomp _ _ _ hm
        have hlen : r.length = mid.length + rest.length + 3 := by
          have := congrArg List.length hdec
          simp [List.length_append] at this
          omega
        simp only [escapeAux, hm]
        rw [ih rest (by simp at hs; omega) g1 g2
          (by simp at h1; omega) (by simp at h2; omega)]

theorem escapeGoPass_cons_safe (c : Char) (s : Str) (h : c ≠ '\x7b') :
    escapeGoPass (c :: s) = c :: escapeGoPass s := by
  rw [escapeGoPass, escapeGoPass, List.length_cons, escapeAux]
  rw [escapeMatchAt_none_of_not_sw (c :: s) (by cases s <;> simp [startsWithStr, Ne.symm h])]

theorem escapeGoPass_match (mid post : Str) (h : ∀ c ∈ mid, c ≠ '\x7d' ∧ c ≠ '\n') :
    escapeGoPass ('\x7b' :: '\x7b' :: (mid ++ '\x7d' :: '\x7d' :: post)) =
      (if ('\x7b' :: '\x7b' :: (mid ++ ['\x7d', '\x7d'])).contains '"'
       then '\x7b' :: '\x7b' :: (mid ++ ['\x7d', '\x7d'])
       else str "\x7b\x7b \"" ++ ('\x7b' :: '\x7b' :: (mid ++ ['\x7d', '\x7d'])) ++
         str "\" \x7d\x7d") ++ escapeGoPass post := by
  rw [escapeGoPass]
  rw [show ('\x7b' :: '\x7b' :: (mid ++ '\x7d' :: '\x7d' :: post)).length =
    (mid.length + post.length + 3) + 1 by simp [List.length_append]; omega]
  rw [escapeAux]
  rw [show escapeMatchAt ('\x7b' :: '\x7b' :: (mid ++ '\x7d' :: '\x7d' :: post)) =
    some (mid, post) by rw [escapeMatchAt, if_pos rfl, if_pos rfl]
                        exact findCloseBB_append mid post h]
  have hfuel : escapeAux (mid.length + post.length + 3) post = escapeGoPass post :=
    escapeAux_fuel post.length post (Nat.le_refl _) _ _ (by omega) (Nat.le_refl _)
  simp only [hfuel]

/-- C5: the first pass wraps each match of the native-directive pattern
`{{...}}` (lazy, newline-free) as the quoted literal directive
`{{ "match" }}`, except that a match already containing a double quote is
left unwrapped; surrounding text is preserved and scanning continues after
the match. -/
theorem C5_native_directive_wrapped (pre mid post : Str)
    (hpre : '\x7b' ∉ pre)
    (hmid : ∀ c ∈ mid, c ≠ '\x7d' ∧ c ≠ '\n') :
    escapeGoPass (pre ++ '\x7b' :: '\x7b' :: (mid ++ '\x7d' :: '\x7d' :: post)) =
      pre ++ ((if ('\x7b' :: '\x7b' :: (mid ++ ['\x7d', '\x7d'])).contains '"'
               then '\x7b' :: '\x7b' :: (mid ++ ['\x7d', '\x7d'])
               else str "\x7b\x7b \"" ++ ('\x7b' :: '\x7b' :: (mid ++ ['\x7d', '\x7d'])) ++
                 str "\" \x7d\x7d") ++ escapeGoPass post) := by
  induction pre with
  | nil => simpa using escapeGoPass_match mid post hmid
  | cons c t ih =>
    have hc : c ≠ '\x7b' := fun hcc => hpre (by simp [hcc])
    rw [List.cons_append, escapeGoPass_cons_safe c _ hc,
      ih fun hm => hpre (by simp [hm])]
    rfl

/-! ### The variable index over a whole input (C7) -/

theorem collectAux_nil (fuel : Nat) : collectAux fuel [] = some [] := by
  cases fuel <;> rfl

theorem tagsPass_collect : ∀ (fuel : Nat) (s : Str) (idx : Index) (out : Str) (idx' : Index),
    tagsPassAux fuel s idx = some (out, idx') →
    ∃ ps, collectAux fuel s = some ps ∧
      idx' = ps.foldl (fun a p => idxAdd a p.1 p.2) idx := by
  intro fuel
  induction fuel with
  | zero =>
    intro s idx out idx' h
    cases s with
    | nil =>
      obtain ⟨rfl, rfl⟩ := Prod.mk.inj (Option.some.inj h)
      exact ⟨[], rfl, rfl⟩
    | cons c r => simp [tagsPassAux] at h
  | succ n ih =>
    intro s idx out idx' h
    cases s with
    | nil =>
      obtain ⟨rfl, rfl⟩ := Prod.mk.inj (Option.some.inj h)
      exact ⟨[], rfl, rfl⟩
    | cons c r =>
      rw [tagsPassAux] at h
      rw [collectAux]
      cases hm : matchTagAt (c :: r) with
      | none =>
        rw [hm] at h
        rcases Option.map_eq_some'.mp h with ⟨⟨o, i⟩, hrec, he⟩
        obtain ⟨rfl, rfl⟩ := Prod.mk.inj he
        obtain ⟨ps, hc, hi⟩ := ih r idx o i hrec
        exact ⟨ps, hc, hi⟩
      | some m =>
        simp only [hm] at h ⊢
        cases hesc : m.esc with
        | true =>
          simp only [hesc, if_true] at h ⊢
          rcases Option.map_eq_some'.mp h with ⟨⟨o, i⟩, hrec, he⟩
          obtain ⟨rfl, rfl⟩ := Prod.mk.inj he
          obtain ⟨ps, hc, hi⟩ := ih m.rest idx o i hrec
          exact ⟨ps, hc, hi⟩
        | false =>
          simp only [hesc, Bool.false_eq_true, if_false] at h ⊢
          cases hp : processTag m.content with
          | keep =>
            simp only [hp] at h ⊢
            rcases Option.map_eq_some'.mp h with ⟨⟨o, i⟩, hrec, he⟩
            obtain ⟨rfl, rfl⟩ := Prod.mk.inj he
            obtain ⟨ps, hc, hi⟩ := ih m.rest idx o i hrec
            exact ⟨ps, hc, hi⟩
          | crash => exact absurd h (by simp [hp])
          | repl ns key o2 =>
            simp only [hp] at h ⊢
            rcases Option.map_eq_some'.mp h with ⟨⟨o, i⟩, hrec, he⟩
            obtain ⟨rfl, rfl⟩ := Prod.mk.inj he
            obtain ⟨ps, hc, hi⟩ := ih m.rest (idxAdd idx ns key) o i hrec
            refine ⟨(ns, key) :: ps, ?_, ?_⟩
            · rw [hc]
              rfl
            · rw [List.foldl_cons]
              exact hi

theorem idxLookup_idxAdd_same (idx : Index) (ns k : Str) :
    idxLookup (idxAdd idx ns k) ns = some (insertNew ((idxLookup idx ns).getD []) k) := by
  induction idx with
  | nil => simp [idxAdd, idxLookup, insertNew]
  | cons p t ih =>
    obtain ⟨n, ks⟩ := p
    by_cases hn : n = ns
    · subst hn
      simp [idxAdd, idxLookup, insertNew]
    · simp [idxAdd, idxLookup, hn, ih]

theorem idxLookup_idxAdd_other (idx : Index) (ns k ns' : Str) (h : ns' ≠ ns) :
    idxLookup (idxAdd idx ns k) ns' = idxLookup idx ns' := by
  induction idx with
  | nil => simp [idxAdd, idxLookup, Ne.symm h]
  | cons p t ih =>
    obtain ⟨n, ks⟩ := p
    by_cases hn : n = ns
    · subst hn
      simp [idxAdd, idxLookup, Ne.symm h]
    · by_cases hn' : n = ns'
      · subst hn'
        simp [idxAdd, idxLookup, hn]
      · simp [idxAdd, idxLookup, hn, hn', ih]

theorem keysOf_cons_same (ns k : Str) (t : List (Str × Str)) :
    keysOf ((ns, k) :: t) ns = k :: keysOf t ns := by
  simp [keysOf]

theorem keysOf_cons_other (a k ns : Str) (t : List (Str × Str)) (h : a ≠ ns) :
    keysOf ((a, k) :: t) ns = keysOf t ns := by
  simp [keysOf, h]

theorem idxLookup_foldl_getD : ∀ (ps : List (Str × Str)) (idx : Index) (ns : Str),
    (idxLookup (ps.foldl (fun a p => idxAdd a p.1 p.2) idx) ns).getD [] =
      (keysOf ps ns).foldl insertNew ((idxLookup idx ns).getD []) := by
  intro ps
  induction ps with
  | nil => intro idx ns; simp [keysOf]
  | cons p t ih =>
    obtain ⟨pns, pk⟩ := p
    intro idx ns
    rw [List.foldl_cons, ih (idxAdd idx pns pk) ns]
    by_cases h : pns = ns
    · subst h
      rw [keysOf_cons_same, List.foldl_cons, idxLookup_idxAdd_same]
      rfl
    · rw [keysOf_cons_other _ _ _ _ h, idxLookup_idxAdd_other _ _ _ _ (Ne.symm h)]

theorem idxLookup_foldl_isSome : ∀ (ps : List (Str × Str)) (idx : Index) (ns : Str),
    (idxLookup (ps.foldl (fun a p => idxAdd a p.1 p.2) idx) ns).isSome =
      ((idxLookup idx ns).isSome || !(keysOf ps ns).isEmpty) := by
  intro ps
  induction ps with
  | nil => intro idx ns; simp [keysOf]
  | cons p t ih =>
    obtain ⟨pns, pk⟩ := p
    intro idx ns
    rw [List.foldl_cons, ih (idxAdd idx pns pk) ns]
    by_cases h : pns = ns
    · subst h
      rw [keysOf_cons_same, idxLookup_idxAdd_same]
      simp
    · rw [keysOf_cons_other _ _ _ _ h, idxLookup_idxAdd_other _ _ _ _ (Ne.symm h)]

/-- C7: whenever transpilation completes, the produced variable index maps
each namespace to exactly the normalized (namespace, key) pairs the scan
recorded for the well-formed unescaped tag matches — `collectAux` lists them
in scan order, one per match — restricted to that namespace, deduplicated,
in first-seen order; namespaces with no such tag are absent. -/
theorem C7_variable_index (body out : Str) (idx : Index)
    (h : prepareTemplateTags body = some (out, idx)) :
    ∃ ps, collectTags body = some ps ∧
      ∀ ns, idxLookup idx ns =
        if (keysOf ps ns).isEmpty then none else some (dedupKeys (keysOf ps ns)) := by
  obtain ⟨ps, hc, hi⟩ := tagsPass_collect _ _ [] out idx h
  refine ⟨ps, hc, fun ns => ?_⟩
  subst hi
  have hg := idxLookup_foldl_getD ps [] ns
  have hs := idxLookup_foldl_isSome ps [] ns
  rw [show idxLookup ([] : Index) ns = none from rfl] at hg hs
  simp only [Option.getD_none, Option.isSome_none, Bool.false_or] at hg hs
  by_cases hk : (keysOf ps ns).isEmpty
  · rw [if_pos hk]
    rw [hk] at hs
    simpa using hs
  · rw [if_neg hk]
    have : (idxLookup (ps.foldl (fun a p => idxAdd a p.1 p.2) []) ns).isSome = true := by
      rw [hs]
      simpa using hk
    obtain ⟨v, hv⟩ := Option.isSome_iff_exists.mp this
    rw [hv]
    rw [hv] at hg
    simp only [Option.getD_some] at hg
    rw [hg]
    rfl

/-- Witness for C7 at `x {%a.b%}y{%a.b%} {%a.c%} {%d.e%}`: duplicate pairs
are recorded once, first-seen order is kept. -/
theorem C7_witness :
    prepareTemplateTags (str "x \x7b%a.b%\x7dy\x7b%a.b%\x7d \x7b%a.c%\x7d \x7b%d.e%\x7d") =
      some (str "x \x7b\x7b.A.B\x7d\x7dy\x7b\x7b.A.B\x7d\x7d \x7b\x7b.A.C\x7d\x7d \x7b\x7b.D.E\x7d\x7d",
        [(str "A", [str "B", str "C"]), (str "D", [str "E"])]) ∧
    ∃ ps, collectTags (str "x \x7b%a.b%\x7dy\x7b%a.b%\x7d \x7b%a.c%\x7d \x7b%d.e%\x7d") = some ps ∧
      ∀ ns, idxLookup [(str "A", [str "B", str "C"]), (str "D", [str "E"])] ns =
        if (keysOf ps ns).isEmpty then none else some (dedupKeys (keysOf ps ns)) :=
  ⟨by decide,
   C7_variable_index (str "x \x7b%a.b%\x7dy\x7b%a.b%\x7d \x7b%a.c%\x7d \x7b%d.e%\x7d")
     (str "x \x7b\x7b.A.B\x7d\x7dy\x7b\x7b.A.B\x7d\x7d \x7b\x7b.A.C\x7d\x7d \x7b\x7b.D.E\x7d\x7d")
     [(str "A", [str "B", str "C"]), (str "D", [str "E"])] (by decide)⟩

/-! ### The resolver (C6) -/

theorem lookupParam_setKey_same (m : ParamMap) (k : Str) (v : Val) :
    lookupParam (setKey m k v) k = some v := by
  induction m with
  | nil => simp [setKey, lookupParam]
  | cons p t ih =>
    obtain ⟨k0, v0⟩ := p
    by_cases h : k0 = k <;> simp [setKey, lookupParam, h, ih]

theorem lookupParam_setKey_other (m : ParamMap) (k k' : Str) (v : Val) (h : k' ≠ k) :
    lookupParam (setKey m k v) k' = lookupParam m k' := by
  induction m with
  | nil => simp [setKey, lookupParam, Ne.symm h]
  | cons p t ih =>
    obtain ⟨k0, v0⟩ := p
    by_cases h0 : k0 = k
    · subst h0
      simp [setKey, lookupParam, Ne.symm h]
    · by_cases h1 : k0 = k'
      · subst h1
        simp [setKey, lookupParam, h0]
      · simp [setKey, lookupParam, h0, h1, ih]

theorem applyLazy_lookup (cap : Capability) : ∀ (used : List Str) (m : ParamMap) (k : Str),
    lookupParam (applyLazy cap m used) k =
      match cap.templateCallbacks k with
      | some r => if k ∈ used then some (.vStr r) else lookupParam m k
      | none => lookupParam m k := by
  intro used
  induction used with
  | nil =>
    intro m k
    cases cap.templateCallbacks k <;> simp [applyLazy]
  | cons v rest ih =>
    intro m k
    rw [applyLazy]
    cases hv : cap.templateCallbacks v with
    | some r0 =>
      rw [ih (setKey m v (.vStr r0)) k]
      cases hk : cap.templateCallbacks k with
      | some r =>
        by_cases hmem : k ∈ rest
        · simp [hmem]
        · by_cases hkv : k = v
          · subst hkv
            rw [hv] at hk
            obtain rfl := Option.some.inj hk
            simp [hmem, lookupParam_setKey_same]
          · simp [hmem, hkv, lookupParam_setKey_other m v k (.vStr r0) hkv]
      | none =>
        have hkv : k ≠ v := fun he => by rw [he, hv] at hk; cases hk
        simp [lookupParam_setKey_other m v k (.vStr r0) hkv]
    | none =>
      rw [ih m k]
      cases hk : cap.templateCallbacks k with
      | some r =>
        have hkv : k ≠ v := fun he => by rw [he, hv] at hk; cases hk
        simp [hkv]
      | none => rfl

theorem buildParams_tree : ∀ (caps : List (Str × Capability)) (usedVars : Index) (ns : Str),
    lookupTree (buildParams caps usedVars).1 ns =
      (capLookup caps ns).map fun cap =>
        applyLazy cap (cap.templateKeys.getD []) ((idxLookup usedVars ns).getD []) := by
  intro caps
  induction caps with
  | nil => intro usedVars ns; rfl
  | cons p t ih =>
    obtain ⟨n, cap⟩ := p
    intro usedVars ns
    rw [buildParams]
    by_cases h : n = ns
    · subst h
      simp [lookupTree, capLookup]
    · simp [lookupTree, capLookup, h, ih]

/-- Occurrence count of a key in a key list (kept separate from `List.count`
to fix the equality instance). -/
def countStr (k : Str) : List Str → Nat
  | [] => 0
  | a :: t => (if a = k then 1 else 0) + countStr k t

theorem countStr_nodup (k : Str) (l : List Str) (hd : l.Nodup) :
    countStr k l = if k ∈ l then 1 else 0 := by
  induction l with
  | nil => rfl
  | cons a t ih =>
    rw [List.nodup_cons] at hd
    by_cases hak : a = k
    · subst hak
      have : a ∉ t := hd.1
      simp [countStr, ih hd.2, this]
    · simp [countStr, hak, ih hd.2, Ne.symm hak]

theorem count_map_lazy (ns k : Str) (l : List Str) :
    (l.map (CallEvent.lazy ns)).count (.lazy ns k) = countStr k l := by
  induction l with
  | nil => rfl
  | cons a t ih => simp [List.count_cons, countStr, ih, Nat.add_comm]

theorem count_bulk_map_lazy (ns ns' : Str) (l : List Str) :
    (l.map (CallEvent.lazy ns)).count (.bulk ns') = 0 := by
  induction l with
  | nil => rfl
  | cons a t ih => simp [List.count_cons, ih]

theorem count_lazy_map_other (ns ns' k : Str) (l : List Str) (h : ns ≠ ns') :
    (l.map (CallEvent.lazy ns)).count (.lazy ns' k) = 0 := by
  induction l with
  | nil => rfl
  | cons a t ih => simp [List.count_cons, ih, h]

theorem buildParams_count_bulk : ∀ (caps : List (Str × Capability)) (usedVars : Index) (ns : Str),
    (caps.map Prod.fst).Nodup →
    (buildParams caps usedVars).2.count (.bulk ns) =
      if ns ∈ caps.map Prod.fst then 1 else 0 := by
  intro caps
  induction caps with
  | nil => intro usedVars ns _; rfl
  | cons p t ih =>
    obtain ⟨n, cap⟩ := p
    intro usedVars ns hnd
    simp only [buildParams]
    simp only [List.map_cons, List.nodup_cons] at hnd
    rw [List.count_append, List.count_cons, count_bulk_map_lazy n ns,
      ih usedVars ns hnd.2]
    by_cases h : n = ns
    · subst h
      simp [hnd.1]
    · have hb : (CallEvent.bulk n == CallEvent.bulk ns) = false := by
        rw [beq_eq_false_iff_ne]
        intro he
        exact h (CallEvent.bulk.inj he)
      rw [hb]
      have hne : (ns = n) = False := eq_false (fun he => h he.symm)
      simp only [List.map_cons, List.mem_cons, hne, false_or,
        Bool.false_eq_true, if_false, Nat.zero_add]

theorem buildParams_count_lazy_absent :
    ∀ (caps : List (Str × Capability)) (usedVars : Index) (ns k : Str),
    ns ∉ caps.map Prod.fst →
    (buildParams caps usedVars).2.count (.lazy ns k) = 0 := by
  intro caps
  induction caps with
  | nil => intro usedVars ns k _; rfl
  | cons p t ih =>
    obtain ⟨n, cap⟩ := p
    intro usedVars ns k hns
    simp only [buildParams]
    simp only [List.map_cons, List.mem_cons] at hns
    have h1 : n ≠ ns := fun he => hns (Or.inl he.symm)
    simp [List.count_append, List.count_cons, count_lazy_map_other n ns k _ h1,
      ih usedVars ns k fun hm => hns (Or.inr hm)]

theorem buildParams_count_lazy :
    ∀ (caps : List (Str × Capability)) (usedVars : Index) (ns k : Str),
    (caps.map Prod.fst).Nodup → ns ∈ caps.map Prod.fst →
    ((idxLookup usedVars ns).getD []).Nodup →
    (buildParams caps usedVars).2.count (.lazy ns k) =
      if k ∈ (idxLookup usedVars ns).getD [] then 1 else 0 := by
  intro caps
  induction caps with
  | nil => intro usedVars ns k _ h _; simp at h
  | cons p t ih =>
    obtain ⟨n, cap⟩ := p
    intro usedVars ns k hnd hmem hkd
    simp only [buildParams]
    simp only [List.map_cons, List.nodup_cons] at hnd
    by_cases h : n = ns
    · subst h
      rw [List.count_append]
      rw [buildParams_count_lazy_absent t usedVars n k hnd.1]
      simp [List.count_cons, count_map_lazy, countStr_nodup k _ hkd]
    · simp only [List.map_cons, List.mem_cons] at hmem
      rcases hmem with he | hmem
      · exact absurd he.symm h
      · rw [List.count_append]
        simp [List.count_cons, count_lazy_map_other n ns k _ h,
          ih usedVars ns k hnd.2 hmem hkd]

/-- C6: for each supplied capability, bulk-resolve (`TemplateKeys`) appears
exactly once in the invocation trace, and lazy-resolve (`TemplateCallbacks`)
appears exactly once for each key recorded under that namespace in the used
variable index; the parameter-tree entry for the namespace always exists (a
`nil` bulk result is treated as the empty mapping) and equals the bulk
mapping with every lazy value that signals found set into it, overwriting
any bulk value for the same key. -/
theorem C6_resolver_calls_and_tree (caps : List (Str × Capability)) (usedVars : Index)
    (hnd : (caps.map Prod.fst).Nodup)
    (hkd : ∀ ns, ((idxLookup usedVars ns).getD []).Nodup) :
    (∀ ns, ns ∈ caps.map Prod.fst →
       (buildParams caps usedVars).2.count (.bulk ns) = 1) ∧
    (∀ ns, ns ∉ caps.map Prod.fst →
       (buildParams caps usedVars).2.count (.bulk ns) = 0) ∧
    (∀ ns k, ns ∈ caps.map Prod.fst →
       (buildParams caps usedVars).2.count (.lazy ns k) =
         if k ∈ (idxLookup usedVars ns).getD [] then 1 else 0) ∧
    (∀ ns k, ns ∉ caps.map Prod.fst →
       (buildParams caps usedVars).2.count (.lazy ns k) = 0) ∧
    (∀ ns cap, capLookup caps ns = some cap →
       lookupTree (buildParams caps usedVars).1 ns =
         some (applyLazy cap (cap.templateKeys.getD []) ((idxLookup usedVars ns).getD []))) ∧
    (∀ (cap : Capability) (used : List Str) (k : Str),
       lookupParam (applyLazy cap (cap.templateKeys.getD []) used) k =
         match cap.templateCallbacks k with
         | some r => if k ∈ used then some (.vStr r)
                     else lookupParam (cap.templateKeys.getD []) k
         | none => lookupParam (cap.templateKeys.getD []) k) := by
  refine ⟨fun ns hm => ?_, fun ns hm => ?_, fun ns k hm => ?_, fun ns k hm => ?_,
    fun ns cap hc => ?_, fun cap used k => ?_⟩
  · rw [buildParams_count_bulk caps usedVars ns hnd, if_pos hm]
  · rw [buildParams_count_bulk caps usedVars ns hnd, if_neg hm]
  · exact buildParams_count_lazy caps usedVars ns k hnd hm (hkd ns)
  · exact buildParams_count_lazy_absent caps usedVars ns k hm
  · rw [buildParams_tree caps usedVars ns, hc]
    rfl
  · exact applyLazy_lookup cap used _ k

/-- A concrete capability pair and index for the C6 witness. -/
def capsW : List (Str × Capability) :=
  [(str "A", ⟨some [(str "Name", .vStr (str "bulk"))],
      fun k => if k = str "Name" then some (str "lazy") else none⟩),
   (str "B", ⟨none, fun _ => none⟩)]

def usedW : Index := [(str "A", [str "Name", str "Other"])]

theorem usedW_nodup : ∀ ns, ((idxLookup usedW ns).getD []).Nodup := by
  intro ns
  by_cases h : str "A" = ns
  · simp only [usedW, idxLookup, if_pos h, Option.getD_some]
    decide
  · simp [usedW, idxLookup, h]

/-- Witness for C6 with two concrete capabilities and a two-key index. -/
theorem C6_witness :
    (∀ ns, ns ∈ capsW.map Prod.fst → (buildParams capsW usedW).2.count (.bulk ns) = 1) ∧
    (∀ ns, ns ∉ capsW.map Prod.fst → (buildParams capsW usedW).2.count (.bulk ns) = 0) ∧
    (∀ ns k, ns ∈ capsW.map Prod.fst →
       (buildParams capsW usedW).2.count (.lazy ns k) =
         if k ∈ (idxLookup usedW ns).getD [] then 1 else 0) ∧
    (∀ ns k, ns ∉ capsW.map Prod.fst →
       (buildParams capsW usedW).2.count (.lazy ns k) = 0) ∧
    (∀ ns cap, capLookup capsW ns = some cap →
       lookupTree (buildParams capsW usedW).1 ns =
         some (applyLazy cap (cap.templateKeys.getD []) ((idxLookup usedW ns).getD []))) ∧
    (∀ (cap : Capability) (used : List Str) (k : Str),
       lookupParam (applyLazy cap (cap.templateKeys.getD []) used) k =
         match cap.templateCallbacks k with
         | some r => if k ∈ used then some (.vStr r)
                     else lookupParam (cap.templateKeys.getD []) k
         | none => lookupParam (cap.templateKeys.getD []) k) :=
  C6_resolver_calls_and_tree capsW usedW (by decide) usedW_nodup

/-- Witness for C5 at `a {{ foo }} b` (wrapped) and `x{{ "q" }}y`
(already-quoted, left alone). -/
theorem C5_witness :
    escapeGoPass ((str "a ") ++ '\x7b' :: '\x7b' :: ((str " foo ") ++ '\x7d' :: '\x7d' :: (str " b"))) =
      (str "a ") ++ ((if ('\x7b' :: '\x7b' :: ((str " foo ") ++ ['\x7d', '\x7d'])).contains '"'
        then '\x7b' :: '\x7b' :: ((str " foo ") ++ ['\x7d', '\x7d'])
        else str "\x7b\x7b \"" ++ ('\x7b' :: '\x7b' :: ((str " foo ") ++ ['\x7d', '\x7d'])) ++
          str "\" \x7d\x7d") ++ escapeGoPass (str " b")) :=
  C5_native_directive_wrapped (str "a ") (str " foo ") (str " b") (by decide) (by decide)

/-! ## Identity on tag-free text -/

theorem tagsPassAux_id : ∀ (fuel : Nat) (s : Str), s.length ≤ fuel →
    hasTagIn s = false → ∀ idx, tagsPassAux fuel s idx = some (s, idx) := by
  intro fuel
  induction fuel with
  | zero =>
    intro s hl _ _
    cases s with
    | nil => rfl
    | cons c r => simp at hl
  | succ n ih =>
    intro s hl ht idx
    cases s with
    | nil => rfl
    | cons c r =>
      have hm : matchTagAt (c :: r) = none := by
        cases hmm : matchTagAt (c :: r) with
        | none => rfl
        | some m => simp only [hasTagIn, hmm] at ht; simp at ht
      have ht2 : hasTagIn r = false := by
        simp only [hasTagIn, hm] at ht
        simpa using ht
      have hl2 : r.length ≤ n := Nat.le_of_succ_le_succ (by simpa using hl)
      simp only [tagsPassAux, hm, ih r hl2 ht2 idx, Option.map_some']

theorem prepareTemplateTags_id (body : Str)
    (hsub : hasSub (str "\x7b\x7b") body = false)
    (ht : hasTagIn body = false) :
    prepareTemplateTags body = some (body, []) := by
  simp only [prepareTemplateTags, escapeGoPass_id body hsub]
  exact tagsPassAux_id body.length body le_rfl ht []

/-- C9: for input text in which the tag regex does not match anywhere (this
covers both the `\x7b%...%\x7d` form and the percent-encoded delimiter
variant) and which contains no native `\x7b\x7b` directive opener,
transpile-then-render returns exactly the input text with no error, for any
capabilities. -/
theorem C9_plain_text_identity (body : Str) (caps : List (Str × Capability))
    (hsub : hasSub (str "\x7b\x7b") body = false)
    (ht : hasTagIn body = false) :
    Text body caps = some body := by
  simp only [Text, prepareTemplateTags_id body hsub ht, engineRenderPlain, hsub,
    Bool.false_eq_true, if_false]

/-- Witness for C9 at a tag-free, directive-free text containing a lone brace
and a percent sign, with no capabilities. -/
theorem C9_witness :
    hasSub (str "\x7b\x7b") (str "Hello 100% \x7b fine") = false ∧
    hasTagIn (str "Hello 100% \x7b fine") = false ∧
    Text (str "Hello 100% \x7b fine") [] = some (str "Hello 100% \x7b fine") :=
  ⟨by decide, by decide,
   C9_plain_text_identity (str "Hello 100% \x7b fine") [] (by decide) (by decide)⟩

/-! ## TestSafe error paths -/

/-- C10: `TestSafe` returns the empty string alongside a parse error of either
engine attempt and alongside the translated unknown-variable error, and
returns the transpiled body alongside an execution error it cannot
translate. -/
theorem C10_testsafe_error_text (body m mn : Str) (e eh : GoErr)
    (htmlX : Except GoErr Str) (textO : EngineOutcome)
    (hmn : pteFind mn = none) :
    (testSafe ⟨some e, htmlX⟩ textO body = ([], some e)) ∧
    (testSafe ⟨none, .error eh⟩ ⟨some e, .ok m⟩ body = ([], some e)) ∧
    (∀ g1 g2, pteFind m = some (g1, g2) →
      testSafe ⟨none, .error eh⟩ ⟨none, .error (.execError m)⟩ body =
        ([], some (.otherErr (unknownVariableMsg g1 g2)))) ∧
    (testSafe ⟨none, .error eh⟩ ⟨none, .error (.execError mn)⟩ body =
      (body, some (.execError mn))) ∧
    (testSafe ⟨none, .error eh⟩ ⟨none, .error (.otherErr m)⟩ body =
      (body, some (.otherErr m))) := by
  refine ⟨rfl, rfl, ?_, ?_, rfl⟩
  · intro g1 g2 hf
    simp only [testSafe, testSafeTranslate, hf]
  · simp only [testSafe, testSafeTranslate, hmn]

/-- Witness for C10: a concrete translatable execution message and a concrete
untranslatable one. -/
theorem C10_witness :
    pteFind (str "executing \"email\" at <.A.B>: no entry for key \"A\"") =
      some (str "A.B", str "A") ∧
    pteFind (str "boom") = none ∧
    testSafe ⟨none, .error (.otherErr (str "eh"))⟩
        ⟨none, .error (.execError
          (str "executing \"email\" at <.A.B>: no entry for key \"A\""))⟩
        (str "Body") =
      ([], some (.otherErr (unknownVariableMsg (str "A.B") (str "A")))) ∧
    testSafe ⟨none, .error (.otherErr (str "eh"))⟩
        ⟨none, .error (.execError (str "boom"))⟩ (str "Body") =
      (str "Body", some (.execError (str "boom"))) :=
  ⟨by decide, by decide,
   (C10_testsafe_error_text (str "Body")
      (str "executing \"email\" at <.A.B>: no entry for key \"A\"") (str "boom")
      (.otherErr (str "p")) (.otherErr (str "eh")) (.ok (str "o"))
      ⟨none, .ok (str "x")⟩ (by decide)).2.2.1 (str "A.B") (str "A") (by decide),
   (C10_testsafe_error_text (str "Body")
      (str "executing \"email\" at <.A.B>: no entry for key \"A\"") (str "boom")
      (.otherErr (str "p")) (.otherErr (str "eh")) (.ok (str "o"))
      ⟨none, .ok (str "x")⟩ (by decide)).2.2.2.1⟩

/-! ## The error-pattern match on the engine's missing-key message -/

theorem takeToQuote_close (s r : Str) (h : ∀ c ∈ s, c ≠ '"' ∧ c ≠ '\n') :
    takeToQuote (s ++ '"' :: r) = some (s, r) := by
  induction s with
  | nil => rfl
  | cons c t ih =>
    have hc := h c (List.mem_cons_self c t)
    rw [List.cons_append]
    simp [takeToQuote, hc.1, hc.2, ih fun x hx => h x (List.mem_cons_of_mem c hx)]

theorem quotePair_found (s ns r : Str) (hs : ∀ c ∈ s, c ≠ '"' ∧ c ≠ '\n')
    (hns : ∀ c ∈ ns, c ≠ '"' ∧ c ≠ '\n') :
    quotePair (s ++ '"' :: (ns ++ '"' :: r)) = some ns := by
  induction s with
  | nil =>
    rw [List.nil_append]
    simp [quotePair, takeToQuote_close ns r hns]
  | cons c t ih =>
    have hc := hs c (List.mem_cons_self c t)
    rw [List.cons_append]
    simp [quotePair, hc.1, hc.2, ih fun x hx => hs x (List.mem_cons_of_mem c hx)]

theorem afterGt_found (s q ns r : Str)
    (hs : ∀ c ∈ s, c ≠ '>' ∧ c ≠ '\n')
    (hq : ∀ c ∈ q, c ≠ '"' ∧ c ≠ '\n')
    (hns : ∀ c ∈ ns, c ≠ '"' ∧ c ≠ '\n') :
    afterGt (s ++ ('>' :: (q ++ '"' :: (ns ++ '"' :: r)))) = some (s, ns) := by
  induction s with
  | nil =>
    rw [List.nil_append]
    simp [afterGt, quotePair_found q ns r hq hns]
  | cons c t ih =>
    have hc := hs c (List.mem_cons_self c t)
    rw [List.cons_append]
    simp [afterGt, hc.1, hc.2, ih fun x hx => hs x (List.mem_cons_of_mem c hx)]

theorem startsWithStr_false_ext : ∀ (pat a rest : Str), pat.length ≤ a.length →
    startsWithStr pat a = false → startsWithStr pat (a ++ rest) = false := by
  intro pat
  induction pat with
  | nil => intro a rest _ hf; simp [startsWithStr] at hf
  | cons p ps ih =>
    intro a rest hl hf
    cases a with
    | nil => simp at hl
    | cons c cs =>
      rw [List.cons_append]
      by_cases hpc : p = c
      · simp [startsWithStr, hpc] at hf ⊢
        exact ih cs rest (Nat.le_of_succ_le_succ (by simpa using hl)) hf
      · simp [startsWithStr, hpc]

theorem pteAt_append_none (a rest : Str)
    (hl : (str "executing \"email\" at <.").length ≤ a.length)
    (hf : startsWithStr (str "executing \"email\" at <.") a = false) :
    pteAt (a ++ rest) = none := by
  simp [pteAt, startsWithStr_false_ext _ a rest hl hf]

theorem pteFind_append : ∀ (a rest : Str),
    (∀ p, p < a.length → pteAt (a.drop p ++ rest) = none) →
    pteFind (a ++ rest) = pteFind rest := by
  intro a
  induction a with
  | nil => intro rest _; rfl
  | cons c t ih =>
    intro rest h
    have h0 : pteAt ((c :: t) ++ rest) = none := h 0 (Nat.succ_pos _)
    rw [List.cons_append] at h0 ⊢
    simp only [pteFind, h0]
    exact ih rest fun p hp => h (p + 1) (Nat.succ_lt_succ hp)

theorem pteFind_hit (c : Char) (r : Str) (g : Str × Str)
    (h : pteAt (c :: r) = some g) : pteFind (c :: r) = some g := by
  simp only [pteFind, h]

theorem pteFind_pte_prefix (rest : Str) :
    pteFind (str "template: email:1:7: " ++ (str "executing \"email\" at <." ++ rest)) =
      pteFind (str "executing \"email\" at <." ++ rest) := by
  apply pteFind_append
  intro p hp
  rw [← List.append_assoc]
  refine pteAt_append_none _ _ ?_ ?_
  · rw [List.length_append]
    exact Nat.le_add_left _ _
  · exact (by decide : ∀ q, q < (str "template: email:1:7: ").length →
      startsWithStr (str "executing \"email\" at <.")
        ((str "template: email:1:7: ").drop q ++ str "executing \"email\" at <.") =
          false) p hp

theorem pteFind_at_pat (rest : Str) (g : Str × Str) (h : afterGt rest = some g) :
    pteFind (str "executing \"email\" at <." ++ rest) = some g := by
  have hsw := startsWithStr_self_append (str "executing \"email\" at <.") rest
  have hAt : pteAt (str "executing \"email\" at <." ++ rest) = some g := by
    rw [pteAt, if_pos hsw, List.drop_left, h]
  exact pteFind_hit 'e' (str "xecuting \"email\" at <." ++ rest) g hAt

theorem pteFind_missingNs (ns key : Str)
    (hns : ∀ c ∈ ns, c ≠ '>' ∧ c ≠ '\n' ∧ c ≠ '"')
    (hkey : ∀ c ∈ key, c ≠ '>' ∧ c ≠ '\n') :
    pteFind (missingNsErrMsg ns key) = some (ns ++ str "." ++ key, ns) := by
  have hns2 : ∀ c ∈ ns, c ≠ '"' ∧ c ≠ '\n' :=
    fun c hc => ⟨(hns c hc).2.2, (hns c hc).2.1⟩
  have hs1 : ∀ c ∈ ns ++ str "." ++ key, c ≠ '>' ∧ c ≠ '\n' := by
    intro c hc
    rcases List.mem_append.mp hc with hc1 | hc2
    · rcases List.mem_append.mp hc1 with hcn | hcd
      · exact ⟨(hns c hcn).1, (hns c hcn).2.1⟩
      · have hdot : c = '.' := List.mem_singleton.mp hcd
        subst hdot
        exact ⟨by decide, by decide⟩
    · exact hkey c hc2
  have h2 : str "template: email:1:7: executing \"email\" at <." =
      str "template: email:1:7: " ++ str "executing \"email\" at <." := by decide
  have h1 : str ">: map has no entry for key \"" =
      '>' :: (str ": map has no entry for key " ++ ['"']) := by decide
  have h3 : str "\"" = ['"'] := by decide
  have hmsg : missingNsErrMsg ns key =
      str "template: email:1:7: " ++ (str "executing \"email\" at <." ++
        ((ns ++ str "." ++ key) ++ ('>' ::
          (str ": map has no entry for key " ++ '"' :: (ns ++ '"' :: []))))) := by
    simp only [missingNsErrMsg, h2, h1, h3]
    simp [List.append_assoc]
  rw [hmsg, pteFind_pte_prefix]
  exact pteFind_at_pat _ _ (afterGt_found (ns ++ str "." ++ key)
    (str ": map has no entry for key ") ns [] hs1 (by decide) hns2)

/-- C8 counterexample: for namespace `Asd` and key `Zxc` the engine's
missing-key message is translated to `unknown variable Asd at Asd.Zxc` — the
namespace fills the first slot, because the pattern's second capture group is
the engine's missing map key — which differs from the claimed shape
`unknown variable <Key> at <Namespace>.<Key>`, i.e.
`unknown variable Zxc at Asd.Zxc`. -/
theorem C8_counterexample :
    (testSafe ⟨none, .error (.otherErr (str "html"))⟩
        ⟨none, .error (.execError (missingNsErrMsg (str "Asd") (str "Zxc")))⟩
        (str "Hello")).2 =
      some (.otherErr (str "unknown variable Asd at Asd.Zxc")) ∧
    str "unknown variable Asd at Asd.Zxc" ≠
      str "unknown variable Zxc at Asd.Zxc" :=
  ⟨by decide, by decide⟩

/-- C8 (amended): in strict mode, when the underlying engine reports that the
referenced namespace has no entry in the parameter tree, `TestSafe` returns an
error with message `unknown variable <Namespace> at <Namespace>.<Key>`: the
first `%s` slot receives the pattern's second capture group — the quoted
missing map key, which is the namespace — and the second slot receives the
dotted path.  A non-execution error, or an execution error whose message does
not match the pattern, is returned unchanged (together with the transpiled
body). -/
theorem C8_strict_mode_error (body mn ns key : Str) (e : GoErr)
    (hns : ∀ c ∈ ns, c ≠ '>' ∧ c ≠ '\n' ∧ c ≠ '"')
    (hkey : ∀ c ∈ key, c ≠ '>' ∧ c ≠ '\n')
    (hmn : pteFind mn = none) :
    (testSafe ⟨none, .error e⟩
        ⟨none, .error (.execError (missingNsErrMsg ns key))⟩ body =
      ([], some (.otherErr (str "unknown variable " ++ ns ++ str " at " ++
        (ns ++ str "." ++ key))))) ∧
    (testSafe ⟨none, .error e⟩ ⟨none, .error (.execError mn)⟩ body =
      (body, some (.execError mn))) ∧
    (∀ m, testSafe ⟨none, .error e⟩ ⟨none, .error (.otherErr m)⟩ body =
      (body, some (.otherErr m))) := by
  refine ⟨?_, ?_, fun m => rfl⟩
  · simp only [testSafe, testSafeTranslate, pteFind_missingNs ns key hns hkey]
    rfl
  · simp only [testSafe, testSafeTranslate, hmn]

/-- Witness for C8 at namespace `Asd`, key `Zxc`, and the unmatchable
message `boom`. -/
theorem C8_witness :
    (testSafe ⟨none, .error (.otherErr (str "h"))⟩
        ⟨none, .error (.execError (missingNsErrMsg (str "Asd") (str "Zxc")))⟩
        (str "B") =
      ([], some (.otherErr (str "unknown variable " ++ str "Asd" ++ str " at " ++
        (str "Asd" ++ str "." ++ str "Zxc"))))) ∧
    (testSafe ⟨none, .error (.otherErr (str "h"))⟩
        ⟨none, .error (.execError (str "boom"))⟩ (str "B") =
      (str "B", some (.execError (str "boom")))) :=
  ⟨(C8_strict_mode_error (str "B") (str "boom") (str "Asd") (str "Zxc")
      (.otherErr (str "h")) (by decide) (by decide) (by decide)).1,
   (C8_strict_mode_error (str "B") (str "boom") (str "Asd") (str "Zxc")
      (.otherErr (str "h")) (by decide) (by decide) (by decide)).2.1⟩

end Easytpl
